import Mathlib

deriving instance DecidableEq for Except

/-!
Shallow embedding of the MVCC transactional overlay (`mvcc-api`):
the Root-transaction architecture of `src/core/base/Transaction.ts`,
`src/core/async/Transaction.ts` and `src/core/sync/Transaction.ts`.

JS `Map<K, T>` is modelled as an association list `List (K × T)` (insertion
order preserved, `set` replaces in place, `delete` removes), JS `Set<K>` as a
`List K` with `sadd` / `sremove`, and the pluggable storage strategy as an
in-memory association list (the adapter contract: deterministic reads,
writes/deletes reflected immediately).  `null`/absent is `Option`.  Thrown
errors are `Except` errors; error message strings are modelled by inductive
error kinds.
-/

namespace MVCC

/-- JS `Map.get`: value of the first pair whose key matches, else `none`. -/
def alookup {K V : Type} [DecidableEq K] (k : K) : List (K × V) → Option V
  | [] => none
  | p :: rest => if p.1 = k then some p.2 else alookup k rest

/-- JS `Map.set`: replace in place if the key is present, else append. -/
def aset {K V : Type} [DecidableEq K] (k : K) (v : V) : List (K × V) → List (K × V)
  | [] => [(k, v)]
  | p :: rest => if p.1 = k then (k, v) :: rest else p :: aset k v rest

/-- JS `Map.delete`: remove the (unique) pair with the given key. -/
def aremove {K V : Type} [DecidableEq K] (k : K) : List (K × V) → List (K × V)
  | [] => []
  | p :: rest => if p.1 = k then rest else p :: aremove k rest

/-- JS `Set.add`: append if absent. -/
def sadd {K : Type} [DecidableEq K] (k : K) (s : List K) : List K :=
  if k ∈ s then s else s ++ [k]

/-- JS `Set.delete`. -/
def sremove {K : Type} [DecidableEq K] (k : K) (s : List K) : List K :=
  s.filter (fun x => x ≠ k)

/-- A version index record `{ version, exists }` (the TS field `exists` is a
Lean keyword, so it is called `present` here). -/
structure VRec where
  version : Nat
  present : Bool
deriving DecidableEq

/-- An undo-cache entry `{ value, deletedAtVersion }` (type `DeleteEntry`). -/
structure UEntry (V : Type) where
  value : V
  deletedAtVersion : Nat
deriving DecidableEq

/-- A member of the Root's `activeTransactions` set: the registered
transaction's identity and the two fields (`snapshotVersion`, `committed`)
that `_cleanupDeletedCache` reads from it. -/
structure ActiveTx where
  tid : Nat
  snapshotVersion : Nat
  committed : Bool
deriving DecidableEq

/-- The Root-only state of `MVCCTransaction`: global version counter,
`versionIndex`, `deletedCache` (the Undo Cache), the backing strategy's
key/value content, and the active-transaction registry. -/
structure RootState (K V : Type) where
  version : Nat
  versionIndex : List (K × List VRec)
  deletedCache : List (K × List (UEntry V))
  backend : List (K × V)
  activeTransactions : List ActiveTx
deriving DecidableEq

variable {K V : Type}

/-- Undo-cache list for a key (missing key reads as the empty list, exactly
how the source guards every access with `has`/`get`). -/
def udLookup [DecidableEq K] (R : RootState K V) (k : K) : List (UEntry V) :=
  (alookup k R.deletedCache).getD []

/-- The scan loop shared by `_diskRead` and `_diskExists`: walk the version
records in order, remembering the most recent record with
`version ≤ snapshotVersion` (`target`, first component) and stopping at the
first record with `version > snapshotVersion` (`next`, second component). -/
def walkGo (snapshotVersion : Nat) : List VRec → Option VRec → Option VRec × Option VRec
  | [], target => (target, none)
  | r :: rest, target =>
    if r.version ≤ snapshotVersion then walkGo snapshotVersion rest (some r)
    else (target, some r)

def walkIndex (versions : List VRec) (snapshotVersion : Nat) : Option VRec × Option VRec :=
  walkGo snapshotVersion versions none

/-- `AsyncMVCCTransaction._diskWrite` (= the sync one): back up the current
backend value into the Undo Cache, write through, append `(version, true)`
to the Version Index. -/
def diskWrite [DecidableEq K] (R : RootState K V) (key : K) (value : V) (version : Nat) :
    RootState K V :=
  let R1 :=
    match alookup key R.backend with
    | some currentVal =>
      let dc := aset key (udLookup R key ++ [UEntry.mk currentVal version]) R.deletedCache
      { R with deletedCache := dc }
    | none => R
  let R2 := { R1 with backend := aset key value R1.backend }
  let vi := aset key ((alookup key R2.versionIndex).getD [] ++ [VRec.mk version true]) R2.versionIndex
  { R2 with versionIndex := vi }

/-- `AsyncMVCCTransaction._diskDelete` (= the sync one). -/
def diskDelete [DecidableEq K] (R : RootState K V) (key : K) (version : Nat) :
    RootState K V :=
  let R1 :=
    match alookup key R.backend with
    | some currentVal =>
      let dc := aset key (udLookup R key ++ [UEntry.mk currentVal version]) R.deletedCache
      { R with deletedCache := dc }
    | none => R
  let R2 := { R1 with backend := aremove key R1.backend }
  let vi := aset key ((alookup key R2.versionIndex).getD [] ++ [VRec.mk version false]) R2.versionIndex
  { R2 with versionIndex := vi }

/-- `AsyncMVCCTransaction._diskRead` (= the sync one): resolve a key at a
snapshot version through the Version Index, the live backend and the Undo
Cache. -/
def diskRead [DecidableEq K] (R : RootState K V) (key : K) (snapshotVersion : Nat) :
    Option V :=
  match alookup key R.versionIndex with
  | none => alookup key R.backend
  | some versions =>
    match walkIndex versions snapshotVersion with
    | (none, _) => none
    | (some target, next) =>
      if target.present then
        match next with
        | none => alookup key R.backend
        | some n =>
          match (udLookup R key).find? (fun c => c.deletedAtVersion = n.version) with
          | some m => some m.value
          | none => none
      else none

/-- `AsyncMVCCTransaction._diskExists`: same walk, but when no record is
visible at the snapshot it falls back to the backend's live existence. -/
def diskExists [DecidableEq K] (R : RootState K V) (key : K) (snapshotVersion : Nat) :
    Bool :=
  match alookup key R.versionIndex with
  | none => (alookup key R.backend).isSome
  | some versions =>
    match (walkIndex versions snapshotVersion).1 with
    | none => (alookup key R.backend).isSome
    | some target => target.present

/-- The oldest-live-snapshot computation opening `_cleanupDeletedCache`. -/
def minActiveVersion (R : RootState K V) : Nat :=
  R.activeTransactions.foldl
    (fun m tx => if !tx.committed && tx.snapshotVersion < m then tx.snapshotVersion else m)
    R.version

/-- `_cleanupDeletedCache`: keep only undo entries with
`deletedAtVersion > minActiveVersion`, dropping keys that become empty. -/
def cleanupDeletedCache [DecidableEq K] (R : RootState K V) : RootState K V :=
  if R.deletedCache.isEmpty then R
  else
    let m := minActiveVersion R
    let dc := (R.deletedCache.map
        (fun p => (p.1, p.2.filter (fun e => m < e.deletedAtVersion)))).filter
      (fun p => !p.2.isEmpty)
    { R with deletedCache := dc }

/-- The per-transaction fields of `MVCCTransaction` (Root or Nested): the
state flag, the two snapshot watermarks, the local version counter, the five
buffers and the per-key local-version map.  `tid` identifies the transaction
object in the Root's active-transaction set; `isRoot` mirrors the absence of
a `parent` reference. -/
structure TxBuf (K V : Type) where
  committed : Bool
  snapshotVersion : Nat
  snapshotLocalVersion : Nat
  localVersion : Nat
  writeBuffer : List (K × V)
  deleteBuffer : List K
  createdKeys : List K
  deletedValues : List (K × V)
  originallyExisted : List K
  keyVersions : List (K × Nat)
  tid : Nat
  isRoot : Bool
deriving DecidableEq

/-- A fresh Root transaction's buffers (constructor with a strategy and no
parent: every counter 0, every buffer empty). -/
def rootBuf (K V : Type) : TxBuf K V :=
  ⟨false, 0, 0, 0, [], [], [], [], [], [], 0, true⟩

/-- A fresh Root's `RootState` over the strategy's initial content
(`version = 0`, empty index, cache and registry). -/
def freshRoot (backend : List (K × V)) : RootState K V :=
  ⟨0, [], [], backend, []⟩

/-- Error kinds thrown synchronously by the operation-gating code (the
source throws `Error` with the corresponding message). -/
inductive TxErr where
  | alreadyCommitted
  | alreadyExists
  | notFound
deriving DecidableEq

/-- Error kinds reported inside a commit `Result`. -/
inductive RErr where
  | alreadyCommitted
  | ancestorCommitted
  | conflictErr
deriving DecidableEq

/-- A `TransactionEntry` `{ key, data }`. -/
structure Entry (K V : Type) where
  key : K
  data : V
deriving DecidableEq

/-- The async `TransactionResult`.  The source's `conflict` triple is
modelled by the conflicting key (the source also records the parent's and
child's currently visible values in it, which no claim inspects). -/
structure TxResult (K V : Type) where
  success : Bool
  error : Option RErr
  conflictKey : Option K
  created : List (Entry K V)
  updated : List (Entry K V)
  deleted : List (Entry K V)
deriving DecidableEq

/-- The sync `commit`'s result shape in `sync/Transaction.ts`: a success
flag and key-only lists (no `error`, `conflict` or entry data). -/
structure SyncResult (K : Type) where
  success : Bool
  created : List K
  updated : List K
  deleted : List K
deriving DecidableEq

variable [DecidableEq K]

/-- `MVCCTransaction._bufferCreate`. -/
def bufferCreate (b : TxBuf K V) (key : K) (value : V) : TxBuf K V :=
  let lv := b.localVersion + 1
  { b with localVersion := lv,
           writeBuffer := aset key value b.writeBuffer,
           createdKeys := sadd key b.createdKeys,
           deleteBuffer := sremove key b.deleteBuffer,
           originallyExisted := sremove key b.originallyExisted,
           keyVersions := aset key lv b.keyVersions }

/-- `MVCCTransaction._bufferWrite`. -/
def bufferWrite (b : TxBuf K V) (key : K) (value : V) : TxBuf K V :=
  let lv := b.localVersion + 1
  { b with localVersion := lv,
           writeBuffer := aset key value b.writeBuffer,
           deleteBuffer := sremove key b.deleteBuffer,
           keyVersions := aset key lv b.keyVersions }

/-- `MVCCTransaction._bufferDelete`. -/
def bufferDelete (b : TxBuf K V) (key : K) : TxBuf K V :=
  let lv := b.localVersion + 1
  { b with localVersion := lv,
           deleteBuffer := sadd key b.deleteBuffer,
           writeBuffer := aremove key b.writeBuffer,
           createdKeys := sremove key b.createdKeys,
           keyVersions := aset key lv b.keyVersions }

/-- The visibility sequence inside `read` (own Write Buffer, own Delete
Buffer, then the Root's `_diskRead` at this transaction's snapshot),
without the closed-transaction gate. -/
def txRead (b : TxBuf K V) (R : RootState K V) (key : K) : Option V :=
  match alookup key b.writeBuffer with
  | some v => some v
  | none => if key ∈ b.deleteBuffer then none else diskRead R key b.snapshotVersion

/-- `read` with its `AlreadyCommitted` gate (sync and async are
line-identical here; the async flavour merely wraps this in a promise). -/
def readOp (b : TxBuf K V) (R : RootState K V) (key : K) : Except TxErr (Option V) :=
  if b.committed then .error .alreadyCommitted else .ok (txRead b R key)

/-- `exists` with its gate: Delete Buffer first, then Write Buffer, then
`_diskExists`. -/
def existsOp (b : TxBuf K V) (R : RootState K V) (key : K) : Except TxErr Bool :=
  if b.committed then .error .alreadyCommitted
  else if key ∈ b.deleteBuffer then .ok false
  else if (alookup key b.writeBuffer).isSome then .ok true
  else .ok (diskExists R key b.snapshotVersion)

/-- `create(key, value)`: fails `AlreadyExists` when the Write Buffer holds
the key, or the key is not delete-buffered and `read` sees a value. -/
def createOp (b : TxBuf K V) (R : RootState K V) (key : K) (value : V) :
    Except TxErr (TxBuf K V) :=
  if b.committed then .error .alreadyCommitted
  else if (alookup key b.writeBuffer).isSome ||
      (key ∉ b.deleteBuffer && (txRead b R key).isSome) then .error .alreadyExists
  else .ok (bufferCreate b key value)

/-- `write(key, value)`: fails `NotFound` when the key is neither
write-buffered nor visible (delete-buffered or absent from the snapshot). -/
def writeOp (b : TxBuf K V) (R : RootState K V) (key : K) (value : V) :
    Except TxErr (TxBuf K V) :=
  if b.committed then .error .alreadyCommitted
  else if (alookup key b.writeBuffer).isNone &&
      (key ∈ b.deleteBuffer || (txRead b R key).isNone) then .error .notFound
  else .ok (bufferWrite b key value)

/-- The async `delete(key)`: resolve the pre-image (Write Buffer first,
else `read`), fail `NotFound` when absent, record it in the Deleted-Value
Map, extend the Originally-Existed Set unless the key was a write-buffered
in-scope `create`, then tombstone. -/
def deleteOp (b : TxBuf K V) (R : RootState K V) (key : K) :
    Except TxErr (TxBuf K V) :=
  if b.committed then .error .alreadyCommitted
  else
    let pre : Option V × Bool :=
      match alookup key b.writeBuffer with
      | some v => (some v, true)
      | none => (if key ∈ b.deleteBuffer then none else txRead b R key, false)
    match pre with
    | (none, _) => .error .notFound
    | (some valueToDelete, wasInWriteBuffer) =>
      let b1 := { b with deletedValues := aset key valueToDelete b.deletedValues }
      let b2 :=
        if !wasInWriteBuffer || key ∉ b1.createdKeys then
          { b1 with originallyExisted := sadd key b1.originallyExisted }
        else b1
      .ok (bufferDelete b2 key)

/-- `createNested()`: gate on the closed flag, snapshot at the Root's
global version (Root caller) or the caller's own snapshot, copy the local
version as the child's snapshot local version, register the child. -/
def createNested (b : TxBuf K V) (R : RootState K V) (newTid : Nat) :
    Except TxErr (TxBuf K V × RootState K V) :=
  if b.committed then .error .alreadyCommitted
  else
    let childVersion := if b.isRoot then R.version else b.snapshotVersion
    let child : TxBuf K V :=
      ⟨false, childVersion, b.localVersion, b.localVersion, [], [], [], [], [], [],
        newTid, false⟩
    .ok (child, { R with activeTransactions :=
      R.activeTransactions ++ [⟨newTid, childVersion, false⟩] })

/-- `MVCCTransaction._getResultEntries`: split the Write Buffer into
`created` / `updated` by the Created Set, and report a Delete Buffer key in
`deleted` only when it is in the Originally-Existed Set and has a
Deleted-Value Map pre-image. -/
def getResultEntries (b : TxBuf K V) :
    List (Entry K V) × List (Entry K V) × List (Entry K V) :=
  let created := (b.writeBuffer.filter (fun kv => decide (kv.1 ∈ b.createdKeys))).map
    (fun kv => Entry.mk kv.1 kv.2)
  let updated := (b.writeBuffer.filter (fun kv => decide (kv.1 ∉ b.createdKeys))).map
    (fun kv => Entry.mk kv.1 kv.2)
  let deleted := (b.deleteBuffer.filter (fun k => decide (k ∈ b.originallyExisted))).filterMap
    (fun k => (alookup k b.deletedValues).map (fun v => Entry.mk k v))
  (created, updated, deleted)

/-- `MVCCTransaction.rollback`: compute the result entries, clear the five
buffers, set `committed`, deregister non-Root transactions.  (The per-key
local-version map and the local version counter are left as they are, as in
the source.) -/
def rollback (b : TxBuf K V) (R : RootState K V) :
    TxResult K V × TxBuf K V × RootState K V :=
  let e := getResultEntries b
  let c := e.1
  let u := e.2.1
  let d := e.2.2
  let b' := { b with writeBuffer := [], deleteBuffer := [], createdKeys := [],
                     deletedValues := [], originallyExisted := [], committed := true }
  let R' :=
    if b.isRoot then R
    else { R with activeTransactions :=
      R.activeTransactions.filter (fun t => t.tid ≠ b.tid) }
  (⟨true, none, none, c, u, d⟩, b', R')

/-- The per-key test of the Root merge's global conflict detection: the key
has a non-empty Version Index history whose last version exceeds the
committer's snapshot version. -/
def keyConflicts (R : RootState K V) (snapshotVersion : Nat) (k : K) : Bool :=
  match alookup k R.versionIndex with
  | none => false
  | some versions =>
    match versions.getLast? with
    | none => false
    | some r => decide (snapshotVersion < r.version)

/-- `new Set([...wb.keys(), ...db])`: concatenation deduplicated keeping
first occurrences. -/
def dedupAux : List K → List K → List K
  | [], acc => acc
  | k :: ks, acc => if k ∈ acc then dedupAux ks acc else dedupAux ks (acc ++ [k])

def dedupKeys (ks : List K) : List K := dedupAux ks []

/-- The modified-key set of a committing transaction (Write Buffer keys
followed by Delete Buffer keys). -/
def modifiedKeys (b : TxBuf K V) : List K :=
  dedupKeys (b.writeBuffer.map Prod.fst ++ b.deleteBuffer)

def applyWrites (R : RootState K V) (ws : List (K × V)) (version : Nat) : RootState K V :=
  ws.foldl (fun acc kv => diskWrite acc kv.1 kv.2 version) R

def applyDeletes (R : RootState K V) (ds : List K) (version : Nat) : RootState K V :=
  ds.foldl (fun acc k => diskDelete acc k version) R

/-- The Root branch of the async `_merge` (persistence): global conflict
detection over the modified keys, apply writes then deletes at
`version + 1`, bump the global version, deregister the child, garbage
collect.  On conflict nothing is applied and the state is unchanged. -/
def rootMerge (R : RootState K V) (child : TxBuf K V) : Except K (RootState K V) :=
  let newVersion := R.version + 1
  match (modifiedKeys child).find? (keyConflicts R child.snapshotVersion) with
  | some k => .error k
  | none =>
    let R1 := applyWrites R child.writeBuffer newVersion
    let R2 := applyDeletes R1 child.deleteBuffer newVersion
    let R3 := { R2 with version := newVersion,
                        activeTransactions :=
                          R2.activeTransactions.filter (fun t => t.tid ≠ child.tid) }
    .ok (cleanupDeletedCache R3)

/-- The per-key test of sibling conflict detection in the nested branch of
`_merge`: the parent's per-key local-version map entry exceeds the child's
snapshot local version. -/
def siblingConflicts (parent : TxBuf K V) (snapshotLocalVersion : Nat) (k : K) : Bool :=
  match alookup k parent.keyVersions with
  | none => false
  | some lv => decide (snapshotLocalVersion < lv)

/-- Buffer integration of the async nested `_merge` (after conflict
detection): fold the child's writes then deletes into the parent at a fresh
parent local tick, propagating Created Set, Deleted-Value Map and
Originally-Existed Set memberships. -/
def nestedMergeApply (parent child : TxBuf K V) : TxBuf K V :=
  let newLocalVersion := parent.localVersion + 1
  let p1 := child.writeBuffer.foldl
    (fun p kv =>
      let p' := { p with writeBuffer := aset kv.1 kv.2 p.writeBuffer,
                         deleteBuffer := sremove kv.1 p.deleteBuffer,
                         keyVersions := aset kv.1 newLocalVersion p.keyVersions }
      if kv.1 ∈ child.createdKeys then
        { p' with createdKeys := sadd kv.1 p'.createdKeys }
      else p')
    parent
  let p2 := child.deleteBuffer.foldl
    (fun p k =>
      let p' := { p with deleteBuffer := sadd k p.deleteBuffer,
                         writeBuffer := aremove k p.writeBuffer,
                         createdKeys := sremove k p.createdKeys,
                         keyVersions := aset k newLocalVersion p.keyVersions }
      let p'' :=
        match alookup k child.deletedValues with
        | some dv => { p' with deletedValues := aset k dv p'.deletedValues }
        | none => p'
      if k ∈ child.originallyExisted then
        { p'' with originallyExisted := sadd k p''.originallyExisted }
      else p'')
    p1
  { p2 with localVersion := newLocalVersion }

/-- The nested branch of the async `_merge`: sibling conflict detection over
the child's Write Buffer keys then Delete Buffer keys (no partial merge on
conflict), then buffer integration and deregistration of the child. -/
def nestedMerge (parent child : TxBuf K V) (R : RootState K V) :
    Except K (TxBuf K V × RootState K V) :=
  match (child.writeBuffer.map Prod.fst).find?
      (siblingConflicts parent child.snapshotLocalVersion) with
  | some k => .error k
  | none =>
    match child.deleteBuffer.find? (siblingConflicts parent child.snapshotLocalVersion) with
    | some k => .error k
    | none =>
      .ok (nestedMergeApply parent child,
        { R with activeTransactions :=
          R.activeTransactions.filter (fun t => t.tid ≠ child.tid) })

/-- The async `commit` of a nested transaction whose parent is also nested:
result entries are computed first; a closed transaction or a committed
ancestor yields a failure Result carrying those entries; a merge conflict
yields a failure Result and leaves every state unchanged; on success the
child is closed.  `higherAncestorCommitted` abbreviates
`hasCommittedAncestor` above the immediate parent. -/
def commitNested (child parent : TxBuf K V) (higherAncestorCommitted : Bool)
    (R : RootState K V) : TxResult K V × TxBuf K V × TxBuf K V × RootState K V :=
  let e := getResultEntries child
  let c := e.1
  let u := e.2.1
  let d := e.2.2
  if child.committed then
    (⟨false, some .alreadyCommitted, none, c, u, d⟩, child, parent, R)
  else if parent.committed || higherAncestorCommitted then
    (⟨false, some .ancestorCommitted, none, c, u, d⟩, child, parent, R)
  else
    match nestedMerge parent child R with
    | .error k => (⟨false, some .conflictErr, some k, c, u, d⟩, child, parent, R)
    | .ok (parent', R') =>
      (⟨true, none, none, c, u, d⟩, { child with committed := true }, parent', R')

/-- The async `commit` of a nested transaction whose immediate parent is the
Root: `this.parent._merge(this)` lands in the Root branch of `_merge`.
`rootCommitted` is the Root's `committed` flag (the whole ancestor chain). -/
def commitChildOfRoot (child : TxBuf K V) (rootCommitted : Bool) (R : RootState K V) :
    TxResult K V × TxBuf K V × RootState K V :=
  let e := getResultEntries child
  let c := e.1
  let u := e.2.1
  let d := e.2.2
  if child.committed then
    (⟨false, some .alreadyCommitted, none, c, u, d⟩, child, R)
  else if rootCommitted then
    (⟨false, some .ancestorCommitted, none, c, u, d⟩, child, R)
  else
    match rootMerge R child with
    | .error k => (⟨false, some .conflictErr, some k, c, u, d⟩, child, R)
    | .ok R' => (⟨true, none, none, c, u, d⟩, { child with committed := true }, R')

/-- The async `commit` of the Root itself: with empty buffers the merge is
skipped; a merge conflict reports empty entry lists and changes nothing; on
success every buffer, the per-key map and the local version are reset and
the Root stays open. -/
def commitRoot (b : TxBuf K V) (R : RootState K V) :
    TxResult K V × TxBuf K V × RootState K V :=
  let e := getResultEntries b
  let c := e.1
  let u := e.2.1
  let d := e.2.2
  if b.committed then
    (⟨false, some .alreadyCommitted, none, c, u, d⟩, b, R)
  else if b.writeBuffer.isEmpty && b.deleteBuffer.isEmpty then
    (⟨true, none, none, c, u, d⟩, b, R)
  else
    match rootMerge R b with
    | .error k => (⟨false, some .conflictErr, some k, [], [], []⟩, b, R)
    | .ok R' =>
      (⟨true, none, none, c, u, d⟩,
        { b with writeBuffer := [], deleteBuffer := [], createdKeys := [],
                 deletedValues := [], originallyExisted := [], keyVersions := [],
                 localVersion := 0 }, R')

/-- Errors thrown by the sync `commit`/`_merge` (which throw where the async
flavour returns a failure Result). -/
inductive SyncErr (K : Type) where
  | alreadyCommitted
  | conflictAt (k : K)
deriving DecidableEq

/-- The Root branch of the sync `_merge`: it deregisters the child *before*
conflict detection, then proceeds as the async one but throws on conflict
(the pair's first component; the second is the state as mutated so far). -/
def syncRootMerge (R : RootState K V) (child : TxBuf K V) :
    Option K × RootState K V :=
  let R0 := { R with activeTransactions :=
    R.activeTransactions.filter (fun t => t.tid ≠ child.tid) }
  let newVersion := R0.version + 1
  match (modifiedKeys child).find? (keyConflicts R0 child.snapshotVersion) with
  | some k => (some k, R0)
  | none =>
    let R1 := applyWrites R0 child.writeBuffer newVersion
    let R2 := applyDeletes R1 child.deleteBuffer newVersion
    (none, cleanupDeletedCache { R2 with version := newVersion })

/-- Buffer integration of the sync nested `_merge`: unlike the async one it
does not propagate the child's Deleted-Value Map or Originally-Existed Set. -/
def syncNestedMergeApply (parent child : TxBuf K V) : TxBuf K V :=
  let newLocalVersion := parent.localVersion + 1
  let p1 := child.writeBuffer.foldl
    (fun p kv =>
      let p' := { p with writeBuffer := aset kv.1 kv.2 p.writeBuffer,
                         deleteBuffer := sremove kv.1 p.deleteBuffer,
                         keyVersions := aset kv.1 newLocalVersion p.keyVersions }
      if kv.1 ∈ child.createdKeys then
        { p' with createdKeys := sadd kv.1 p'.createdKeys }
      else p')
    parent
  let p2 := child.deleteBuffer.foldl
    (fun p k =>
      { p with deleteBuffer := sadd k p.deleteBuffer,
               writeBuffer := aremove k p.writeBuffer,
               createdKeys := sremove k p.createdKeys,
               keyVersions := aset k newLocalVersion p.keyVersions })
    p1
  { p2 with localVersion := newLocalVersion }

/-- The nested branch of the sync `_merge` (conflicts thrown, reported as
the first component). -/
def syncNestedMerge (parent child : TxBuf K V) (R : RootState K V) :
    Option K × TxBuf K V × RootState K V :=
  match (child.writeBuffer.map Prod.fst).find?
      (siblingConflicts parent child.snapshotLocalVersion) with
  | some k => (some k, parent, R)
  | none =>
    match child.deleteBuffer.find? (siblingConflicts parent child.snapshotLocalVersion) with
    | some k => (some k, parent, R)
    | none =>
      (none, syncNestedMergeApply parent child,
        { R with activeTransactions :=
          R.activeTransactions.filter (fun t => t.tid ≠ child.tid) })

/-- The key-only `created` / `updated` lists computed at the top of the sync
`commit`. -/
def syncResultKeys (b : TxBuf K V) : List K × List K :=
  ((b.writeBuffer.filter (fun kv => decide (kv.1 ∈ b.createdKeys))).map Prod.fst,
   (b.writeBuffer.filter (fun kv => decide (kv.1 ∉ b.createdKeys))).map Prod.fst)

/-- The sync `commit` of a nested transaction with a nested parent.  Note:
no `hasCommittedAncestor` check, `deleted` is the whole Delete Buffer, a
closed transaction or a conflict throws (error value carries the states as
mutated at the throw). -/
def syncCommitNested (child parent : TxBuf K V) (R : RootState K V) :
    Except (SyncErr K × TxBuf K V × TxBuf K V × RootState K V)
      (SyncResult K × TxBuf K V × TxBuf K V × RootState K V) :=
  if child.committed then .error (.alreadyCommitted, child, parent, R)
  else
    let created := (syncResultKeys child).1
    let updated := (syncResultKeys child).2
    let deleted := child.deleteBuffer
    match syncNestedMerge parent child R with
    | (some k, parent', R') => .error (.conflictAt k, child, parent', R')
    | (none, parent', R') =>
      .ok (⟨true, created, updated, deleted⟩, { child with committed := true }, parent', R')

/-- The sync `commit` of a nested transaction whose parent is the Root. -/
def syncCommitChildOfRoot (child : TxBuf K V) (R : RootState K V) :
    Except (SyncErr K × TxBuf K V × RootState K V)
      (SyncResult K × TxBuf K V × RootState K V) :=
  if child.committed then .error (.alreadyCommitted, child, R)
  else
    let created := (syncResultKeys child).1
    let updated := (syncResultKeys child).2
    let deleted := child.deleteBuffer
    match syncRootMerge R child with
    | (some k, R') => .error (.conflictAt k, child, R')
    | (none, R') =>
      .ok (⟨true, created, updated, deleted⟩, { child with committed := true }, R')

/-- The sync `commit` of the Root itself: skips the merge on empty buffers
and resets only the Write Buffer, Delete Buffer, Created Set, per-key map
and local version (not the Deleted-Value Map or Originally-Existed Set). -/
def syncCommitRoot (b : TxBuf K V) (R : RootState K V) :
    Except (SyncErr K × TxBuf K V × RootState K V)
      (SyncResult K × TxBuf K V × RootState K V) :=
  if b.committed then .error (.alreadyCommitted, b, R)
  else
    let created := (syncResultKeys b).1
    let updated := (syncResultKeys b).2
    let deleted := b.deleteBuffer
    if b.writeBuffer.isEmpty && b.deleteBuffer.isEmpty then
      .ok (⟨true, created, updated, deleted⟩, b, R)
    else
      match syncRootMerge R b with
      | (some k, R') => .error (.conflictAt k, b, R')
      | (none, R') =>
        .ok (⟨true, created, updated, deleted⟩,
          { b with writeBuffer := [], deleteBuffer := [], createdKeys := [],
                   keyVersions := [], localVersion := 0 }, R')

/-- `k` is modified by the transaction: in its Write Buffer or Delete
Buffer. -/
def touches (b : TxBuf K V) (k : K) : Prop :=
  k ∈ b.writeBuffer.map Prod.fst ∨ k ∈ b.deleteBuffer

instance (b : TxBuf K V) (k : K) : Decidable (touches b k) := by
  unfold touches; infer_instance

/-- Sequential Root merges of a list of committers under the write critical
section: each outcome is `none` (success, state advances) or the conflicting
key (state unchanged). -/
def runRootMerges : RootState K V → List (TxBuf K V) → List (Option K)
  | _, [] => []
  | R, c :: cs =>
    match rootMerge R c with
    | .error k => some k :: runRootMerges R cs
    | .ok R' => none :: runRootMerges R' cs

/-- Version-index well-formedness: unique keys; per key a non-empty history
strictly increasing in version, bounded by the global version. -/
def IdxOk (R : RootState K V) : Prop :=
  (R.versionIndex.map Prod.fst).Nodup ∧
  ∀ p ∈ R.versionIndex,
    List.Chain' (fun a b => a.version < b.version) p.2 ∧ p.2 ≠ [] ∧
    ∀ r ∈ p.2, r.version ≤ R.version

/-- Undo-cache well-formedness: unique keys; every entry was superseded at
or before the current global version. -/
def UndoOk (R : RootState K V) : Prop :=
  (R.deletedCache.map Prod.fst).Nodup ∧
  ∀ p ∈ R.deletedCache, ∀ e ∈ p.2, e.deletedAtVersion ≤ R.version

/-- Backend synchronisation: the backend holds exactly the keys whose last
index record says the key exists (for keys with an index history). -/
def SyncOk (R : RootState K V) : Prop :=
  (R.backend.map Prod.fst).Nodup ∧
  ∀ p ∈ R.versionIndex, ∀ r, p.2.getLast? = some r →
    (r.present = true ↔ (alookup p.1 R.backend).isSome = true)

/-- Undo completeness: whenever an existing version of a key was superseded
at a version still needed by the oldest live snapshot, the Undo Cache holds
a pre-image entry for that supersession. -/
def CompleteOk (R : RootState K V) : Prop :=
  ∀ p ∈ R.versionIndex, ∀ pr ∈ p.2.zip p.2.tail,
    pr.1.present = true → minActiveVersion R < pr.2.version →
    ∃ e ∈ udLookup R p.1, e.deletedAtVersion = pr.2.version

/-- The Root-state invariant maintained by the persistence protocol. -/
def RootWF (R : RootState K V) : Prop :=
  IdxOk R ∧ UndoOk R ∧ SyncOk R ∧ CompleteOk R

/-- Structural decidability for the sorted-history chain (kernel-reducible,
unlike the generic simp-built instance). -/
def decChainLt : (a : VRec) → (l : List VRec) →
    Decidable (List.Chain (fun x y : VRec => x.version < y.version) a l)
  | _, [] => isTrue List.Chain.nil
  | a, b :: bs =>
    match Nat.decLt a.version b.version with
    | isTrue h1 =>
      match decChainLt b bs with
      | isTrue h2 => isTrue (List.Chain.cons h1 h2)
      | isFalse h2 => isFalse (fun h => h2 (List.chain_cons.mp h).2)
    | isFalse h1 => isFalse (fun h => h1 (List.chain_cons.mp h).1)

instance instDecChainLt (a : VRec) (l : List VRec) :
    Decidable (List.Chain (fun x y : VRec => x.version < y.version) a l) :=
  decChainLt a l

instance instDecChainLtNil (l : List VRec) :
    Decidable (List.Chain' (fun x y : VRec => x.version < y.version) l) :=
  match l with
  | [] => isTrue trivial
  | a :: as =>
    inferInstanceAs
      (Decidable (List.Chain (fun x y : VRec => x.version < y.version) a as))

instance (R : RootState K V) : Decidable (IdxOk R) :=
  inferInstanceAs (Decidable ((R.versionIndex.map Prod.fst).Nodup ∧
    ∀ p ∈ R.versionIndex,
      List.Chain' (fun a b : VRec => a.version < b.version) p.2 ∧ p.2 ≠ [] ∧
      ∀ r ∈ p.2, r.version ≤ R.version))

instance (R : RootState K V) : Decidable (UndoOk R) :=
  inferInstanceAs (Decidable ((R.deletedCache.map Prod.fst).Nodup ∧
    ∀ p ∈ R.deletedCache, ∀ e ∈ p.2, e.deletedAtVersion ≤ R.version))

instance (R : RootState K V) : Decidable (SyncOk R) :=
  inferInstanceAs (Decidable ((R.backend.map Prod.fst).Nodup ∧
    ∀ p ∈ R.versionIndex, ∀ r, p.2.getLast? = some r →
      (r.present = true ↔ (alookup p.1 R.backend).isSome = true)))

instance (R : RootState K V) : Decidable (CompleteOk R) :=
  inferInstanceAs (Decidable (∀ p ∈ R.versionIndex, ∀ pr ∈ p.2.zip p.2.tail,
    pr.1.present = true → minActiveVersion R < pr.2.version →
    ∃ e ∈ udLookup R p.1, e.deletedAtVersion = pr.2.version))

instance (R : RootState K V) : Decidable (RootWF R) :=
  inferInstanceAs (Decidable (IdxOk R ∧ UndoOk R ∧ SyncOk R ∧ CompleteOk R))

/-- Recover a success value, with a default for the error case (used only to
chain the concrete scenario states below; every chained step is proved to
succeed). -/
def okOr {E A : Type} (d : A) : Except E A → A
  | .ok a => a
  | .error _ => d

/-! ### Concrete scenario states

All scenarios run over `K = V = Nat`.

Scenario 1 (pre-engine key): the backend already holds key `7 = 99` before
the engine ever manages it.  A reader is opened at snapshot 0, then a writer
overwrites key 7 and commits. -/

def s1R0 : RootState Nat Nat := freshRoot [(7, 99)]

def s1root : TxBuf Nat Nat := rootBuf Nat Nat

def s1mk1 : TxBuf Nat Nat × RootState Nat Nat := okOr (s1root, s1R0) (createNested s1root s1R0 1)

/-- The reader transaction, snapshot version 0. -/
def s1T : TxBuf Nat Nat := s1mk1.1

def s1mk2 : TxBuf Nat Nat × RootState Nat Nat := okOr (s1root, s1mk1.2) (createNested s1root s1mk1.2 2)

/-- The writer with `write(7, 55)` buffered. -/
def s1W : TxBuf Nat Nat := okOr s1mk2.1 (writeOp s1mk2.1 s1mk2.2 7 55)

def s1commit : TxResult Nat Nat × TxBuf Nat Nat × RootState Nat Nat :=
  commitChildOfRoot s1W false s1mk2.2

/-- Root state after the writer's commit. -/
def s1R1 : RootState Nat Nat := s1commit.2.2

/-! Scenario 2 (engine-managed key 5): a reader at snapshot 0; a creator
commits `5 = 10` (version 1); a reader at snapshot 1; a writer overwrites
`5` with 20 and deletes it in the same scope, then commits (version 2);
then two siblings at snapshot 2 race to re-create key 5. -/

def s2R0 : RootState Nat Nat := freshRoot ([] : List (Nat × Nat))

def s2root : TxBuf Nat Nat := rootBuf Nat Nat

def s2mkReader : TxBuf Nat Nat × RootState Nat Nat :=
  okOr (s2root, s2R0) (createNested s2root s2R0 1)

/-- Reader opened before any commit (snapshot 0, registered as tid 1). -/
def s2reader : TxBuf Nat Nat := s2mkReader.1

def s2mkC : TxBuf Nat Nat × RootState Nat Nat :=
  okOr (s2root, s2mkReader.2) (createNested s2root s2mkReader.2 2)

def s2creator : TxBuf Nat Nat := okOr s2mkC.1 (createOp s2mkC.1 s2mkC.2 5 10)

def s2commit1 : TxResult Nat Nat × TxBuf Nat Nat × RootState Nat Nat :=
  commitChildOfRoot s2creator false s2mkC.2

/-- Root state after `5 = 10` is committed at version 1. -/
def s2R1 : RootState Nat Nat := s2commit1.2.2

def s2mkReader2 : TxBuf Nat Nat × RootState Nat Nat :=
  okOr (s2root, s2R1) (createNested s2root s2R1 4)

/-- Reader opened after the first commit (snapshot 1, tid 4). -/
def s2reader2 : TxBuf Nat Nat := s2mkReader2.1

def s2mkD : TxBuf Nat Nat × RootState Nat Nat :=
  okOr (s2root, s2mkReader2.2) (createNested s2root s2mkReader2.2 3)

/-- The write-then-delete transaction: `write(5, 20)` then `delete(5)`. -/
def s2wd : TxBuf Nat Nat :=
  okOr s2mkD.1 (deleteOp (okOr s2mkD.1 (writeOp s2mkD.1 s2mkD.2 5 20)) s2mkD.2 5)

def s2commit2 : TxResult Nat Nat × TxBuf Nat Nat × RootState Nat Nat :=
  commitChildOfRoot s2wd false s2mkD.2

/-- Root state after the write-then-delete commit (version 2). -/
def s2R2 : RootState Nat Nat := s2commit2.2.2

def s2mkE1 : TxBuf Nat Nat × RootState Nat Nat := okOr (s2root, s2R2) (createNested s2root s2R2 5)

def s2mkE2 : TxBuf Nat Nat × RootState Nat Nat :=
  okOr (s2root, s2mkE1.2) (createNested s2root s2mkE1.2 6)

def s2e1 : TxBuf Nat Nat := okOr s2mkE1.1 (createOp s2mkE1.1 s2mkE2.2 5 30)

/-- The second racer, also created at snapshot 2, with `create(5, 31)`. -/
def s2e2 : TxBuf Nat Nat := okOr s2mkE2.1 (createOp s2mkE2.1 s2mkE2.2 5 31)

def s2commit3 : TxResult Nat Nat × TxBuf Nat Nat × RootState Nat Nat :=
  commitChildOfRoot s2e1 false s2mkE2.2

/-- Root state after the first racer re-creates key 5 (version 3). -/
def s2R3 : RootState Nat Nat := s2commit3.2.2

/-- The second racer's commit: a Root-merge conflict on key 5. -/
def s2commit4 : TxResult Nat Nat × TxBuf Nat Nat × RootState Nat Nat :=
  commitChildOfRoot s2e2 false s2R3

/-- The Root itself buffering `create(5, 40)` on top of `s2R3` (visible to
the Root because its own snapshot version is 0). -/
def s2rootC : TxBuf Nat Nat := okOr s2root (createOp s2root s2R3 5 40)

/-- The Root's own conflicting commit. -/
def s2rootCommit : TxResult Nat Nat × TxBuf Nat Nat × RootState Nat Nat :=
  commitRoot s2rootC s2R3

/-! Scenario 3 (sync/async divergence): `root → t1 → t2`;
`t2.create(9, 1)`; `t1.commit()`; `t2.commit()`. -/

def s3R0 : RootState Nat Nat := freshRoot ([] : List (Nat × Nat))

def s3root : TxBuf Nat Nat := rootBuf Nat Nat

def s3mk1 : TxBuf Nat Nat × RootState Nat Nat := okOr (s3root, s3R0) (createNested s3root s3R0 1)

def s3t1 : TxBuf Nat Nat := s3mk1.1

def s3mk2 : TxBuf Nat Nat × RootState Nat Nat :=
  okOr (s3root, s3mk1.2) (createNested s3t1 s3mk1.2 2)

def s3t2 : TxBuf Nat Nat := okOr s3mk2.1 (createOp s3mk2.1 s3mk2.2 9 1)

/-- Sync flavour: `t1.commit()` (parent is the Root). -/
def s3sync1 :
    Except (SyncErr Nat × TxBuf Nat Nat × RootState Nat Nat)
      (SyncResult Nat × TxBuf Nat Nat × RootState Nat Nat) :=
  syncCommitChildOfRoot s3t1 s3mk2.2

def s3syncT1 : TxBuf Nat Nat :=
  match s3sync1 with | .ok (_, t, _) => t | .error (_, t, _) => t

def s3syncR1 : RootState Nat Nat :=
  match s3sync1 with | .ok (_, _, R) => R | .error (_, _, R) => R

/-- Sync flavour: `t2.commit()` after its parent `t1` is closed. -/
def s3sync2 :
    Except (SyncErr Nat × TxBuf Nat Nat × TxBuf Nat Nat × RootState Nat Nat)
      (SyncResult Nat × TxBuf Nat Nat × TxBuf Nat Nat × RootState Nat Nat) :=
  syncCommitNested s3t2 s3syncT1 s3syncR1

/-- Async flavour: `t1.commit()`. -/
def s3async1 : TxResult Nat Nat × TxBuf Nat Nat × RootState Nat Nat :=
  commitChildOfRoot s3t1 false s3mk1.2

/-- Async flavour: `t2.commit()` after its parent `t1` is closed. -/
def s3async2 : TxResult Nat Nat × TxBuf Nat Nat × TxBuf Nat Nat × RootState Nat Nat :=
  commitNested s3t2 s3async1.2.1 false s3async1.2.2

/-! Small states used by witnesses. -/

def w8b1 : TxBuf Nat Nat := okOr (rootBuf Nat Nat) (createOp (rootBuf Nat Nat) (freshRoot []) 3 7)

def w8b2 : TxBuf Nat Nat := okOr w8b1 (deleteOp w8b1 (freshRoot []) 3)

/-! Literal transaction buffers for the C2 witness: a conflicting writer of
key 5 at snapshot 0, two same-snapshot writers of key 5, and two writers of
disjoint keys 6 and 7. -/

def w2c : TxBuf Nat Nat := ⟨false, 0, 0, 1, [(5, 50)], [], [], [], [], [(5, 1)], 7, false⟩

def w2a : TxBuf Nat Nat := ⟨false, 1, 0, 1, [(5, 51)], [], [], [], [], [(5, 1)], 8, false⟩

def w2b : TxBuf Nat Nat := ⟨false, 1, 0, 1, [(5, 52)], [], [], [], [], [(5, 1)], 9, false⟩

def w2d1 : TxBuf Nat Nat := ⟨false, 1, 0, 1, [(6, 60)], [], [6], [], [], [(6, 1)], 10, false⟩

def w2d2 : TxBuf Nat Nat := ⟨false, 1, 0, 1, [(7, 70)], [], [7], [], [], [(7, 1)], 11, false⟩

/-! ### Basic lemmas about the container model -/

theorem alookup_eq_none_iff (k : K) (l : List (K × V)) :
    alookup k l = none ↔ ∀ p ∈ l, p.1 ≠ k := by
  induction l with
  | nil => simp [alookup]
  | cons p rest ih =>
    by_cases h : p.1 = k <;> simp [alookup, h, ih]

theorem alookup_mem {k : K} {l : List (K × V)} {v : V}
    (h : alookup k l = some v) : (k, v) ∈ l := by
  induction l with
  | nil => simp [alookup] at h
  | cons p rest ih =>
    by_cases hp : p.1 = k
    · simp [alookup, hp] at h
      subst hp; subst h
      exact List.mem_cons_self _ _
    · simp [alookup, hp] at h
      exact List.mem_cons_of_mem _ (ih h)

theorem alookup_aset_self (k : K) (v : V) (l : List (K × V)) :
    alookup k (aset k v l) = some v := by
  induction l with
  | nil => simp [aset, alookup]
  | cons p rest ih =>
    by_cases h : p.1 = k <;> simp [aset, alookup, h, ih]

theorem alookup_aset_ne {k k' : K} (hne : k' ≠ k) (v : V)
    (l : List (K × V)) : alookup k' (aset k v l) = alookup k' l := by
  induction l with
  | nil => simp [aset, alookup, Ne.symm hne]
  | cons p rest ih =>
    by_cases h : p.1 = k
    · subst h; simp [aset, alookup, Ne.symm hne]
    · simp [aset, alookup, h, ih]

theorem alookup_aremove_ne {k k' : K} (hne : k' ≠ k)
    (l : List (K × V)) : alookup k' (aremove k l) = alookup k' l := by
  induction l with
  | nil => simp [aremove]
  | cons p rest ih =>
    by_cases h : p.1 = k
    · subst h; simp [aremove, alookup, Ne.symm hne]
    · simp [aremove, alookup, h, ih]

theorem aset_of_alookup_none {k : K} {l : List (K × V)}
    (h : alookup k l = none) (v : V) : aset k v l = l ++ [(k, v)] := by
  induction l with
  | nil => simp [aset]
  | cons p rest ih =>
    rw [alookup] at h
    by_cases hp : p.1 = k
    · simp [hp] at h
    · simp [hp] at h
      simp [aset, hp, ih h]

theorem aremove_append_of_alookup_none {k : K} {l : List (K × V)}
    (h : alookup k l = none) (v : V) : aremove k (l ++ [(k, v)]) = l := by
  induction l with
  | nil => simp [aremove]
  | cons p rest ih =>
    rw [alookup] at h
    by_cases hp : p.1 = k
    · simp [hp] at h
    · simp [hp] at h
      simp [aremove, hp, ih h]

theorem mem_sadd (k x : K) (s : List K) :
    x ∈ sadd k s ↔ x = k ∨ x ∈ s := by
  unfold sadd
  by_cases h : k ∈ s
  · simp [h]
    intro hx; subst hx; exact h
  · simp [h, or_comm]

theorem mem_sremove (k x : K) (s : List K) :
    x ∈ sremove k s ↔ x ∈ s ∧ x ≠ k := by
  simp [sremove]

theorem mem_dedupAux (x : K) (ks acc : List K) :
    x ∈ dedupAux ks acc ↔ x ∈ ks ∨ x ∈ acc := by
  induction ks generalizing acc with
  | nil => simp [dedupAux]
  | cons k rest ih =>
    unfold dedupAux
    by_cases h : k ∈ acc
    · rw [if_pos h, ih]
      constructor
      · rintro (hx | hx)
        · exact Or.inl (List.mem_cons_of_mem _ hx)
        · exact Or.inr hx
      · rintro (hx | hx)
        · rcases List.mem_cons.mp hx with rfl | hx
          · exact Or.inr h
          · exact Or.inl hx
        · exact Or.inr hx
    · rw [if_neg h, ih]
      constructor
      · rintro (hx | hx)
        · exact Or.inl (List.mem_cons_of_mem _ hx)
        · rcases List.mem_append.mp hx with hx | hx
          · exact Or.inr hx
          · simp at hx
            exact Or.inl (hx ▸ List.mem_cons_self _ _)
      · rintro (hx | hx)
        · rcases List.mem_cons.mp hx with rfl | hx
          · exact Or.inr (List.mem_append.mpr (Or.inr (by simp)))
          · exact Or.inl hx
        · exact Or.inr (List.mem_append.mpr (Or.inl hx))

theorem mem_dedupKeys (x : K) (ks : List K) :
    x ∈ dedupKeys ks ↔ x ∈ ks := by
  simp [dedupKeys, mem_dedupAux]

theorem mem_modifiedKeys (b : TxBuf K V) (k : K) :
    k ∈ modifiedKeys b ↔ touches b k := by
  simp [modifiedKeys, mem_dedupKeys, touches]

/-! ### Easy claim theorems: closed transactions, rollback, sync divergence,
delete pre-image -/

/-- C10.  In the async flavour, `commit` on an already-closed transaction
does not throw: it returns a `success = false` Result whose entry lists are
the buffers' would-be contribution, and all states are returned unchanged;
whereas `create`, `write`, `delete`, `read`, `exists` and `createNested` on
a closed transaction throw (`AlreadyCommitted`) at the offending call. -/
theorem closed_transaction_operations (b parent : TxBuf K V)
    (R : RootState K V) (k : K) (v : V) (anc rc : Bool) (t : Nat)
    (hb : b.committed = true) :
    createOp b R k v = .error .alreadyCommitted ∧
    writeOp b R k v = .error .alreadyCommitted ∧
    deleteOp b R k = .error .alreadyCommitted ∧
    readOp b R k = .error .alreadyCommitted ∧
    existsOp b R k = .error .alreadyCommitted ∧
    createNested b R t = .error .alreadyCommitted ∧
    commitNested b parent anc R =
      (⟨false, some .alreadyCommitted, none, (getResultEntries b).1,
        (getResultEntries b).2.1, (getResultEntries b).2.2⟩, b, parent, R) ∧
    commitChildOfRoot b rc R =
      (⟨false, some .alreadyCommitted, none, (getResultEntries b).1,
        (getResultEntries b).2.1, (getResultEntries b).2.2⟩, b, R) ∧
    commitRoot b R =
      (⟨false, some .alreadyCommitted, none, (getResultEntries b).1,
        (getResultEntries b).2.1, (getResultEntries b).2.2⟩, b, R) := by
  refine ⟨?_, ?_, ?_, ?_, ?_, ?_, ?_, ?_, ?_⟩ <;>
    simp [createOp, writeOp, deleteOp, readOp, existsOp, createNested,
      commitNested, commitChildOfRoot, commitRoot, hb]

/-- C10 witness: a concrete closed transaction behaves as stated. -/
theorem closed_transaction_operations_witness :
    (rollback (s2root) s2R0).2.1.committed = true ∧
    commitRoot (rollback (s2root) s2R0).2.1 s2R0 =
      (⟨false, some .alreadyCommitted, none,
        (getResultEntries (rollback (s2root) s2R0).2.1).1,
        (getResultEntries (rollback (s2root) s2R0).2.1).2.1,
        (getResultEntries (rollback (s2root) s2R0).2.1).2.2⟩,
        (rollback (s2root) s2R0).2.1, s2R0) ∧
    readOp (rollback (s2root) s2R0).2.1 s2R0 5 = .error .alreadyCommitted := by
  have h := closed_transaction_operations (rollback (s2root) s2R0).2.1
    (s2root) s2R0 5 0 false false 9 (by decide)
  exact ⟨by decide, h.2.2.2.2.2.2.2.2, h.2.2.2.1⟩

/-- C6 counterexample: `rollback` on the Root sets its `committed` flag, so
the Root is closed and unusable afterwards — contradicting the claim that
the Root merely resets its buffers and remains open. -/
theorem rollback_closes_root_counterexample :
    (rollback (rootBuf Nat Nat) (freshRoot [])).2.1.committed = true ∧
    readOp ((rollback (rootBuf Nat Nat) (freshRoot [])).2.1) (freshRoot []) 0 =
      .error .alreadyCommitted ∧
    createNested ((rollback (rootBuf Nat Nat) (freshRoot [])).2.1) (freshRoot []) 1 =
      .error .alreadyCommitted := by
  decide

/-- C6 amended.  `rollback()` on any transaction clears the Write Buffer,
Delete Buffer, Created Set, Deleted-Value Map and Originally-Existed Set,
performs no backend I/O (backend, Version Index, Undo Cache and global
version untouched), never reports `Conflict`, and always returns a
successful Result; it marks **every** transaction closed — the nested one
and the Root alike — so the Root is not usable after its own rollback. -/
theorem rollback_behaviour (b : TxBuf K V) (R : RootState K V) :
    (rollback b R).1.success = true ∧
    (rollback b R).1.error = none ∧
    (rollback b R).1.conflictKey = none ∧
    (rollback b R).2.1.writeBuffer = [] ∧
    (rollback b R).2.1.deleteBuffer = [] ∧
    (rollback b R).2.1.createdKeys = [] ∧
    (rollback b R).2.1.deletedValues = [] ∧
    (rollback b R).2.1.originallyExisted = [] ∧
    (rollback b R).2.1.committed = true ∧
    (rollback b R).2.2.version = R.version ∧
    (rollback b R).2.2.versionIndex = R.versionIndex ∧
    (rollback b R).2.2.deletedCache = R.deletedCache ∧
    (rollback b R).2.2.backend = R.backend := by
  unfold rollback
  by_cases h : b.isRoot <;> simp [h]

/-- C9: the code stores the Write Buffer value (the intermediate overwrite),
not the original committed pre-image, when a previously-committed key is
written then deleted in the same scope.  Key 5 was committed with value 10
(`diskRead` at the writer's snapshot returns 10); after `write(5, 20)` then
`delete(5)` the successful commit reports `deleted = [(5, 20)]`. -/
theorem write_then_delete_reports_intermediate_preimage :
    diskRead s2R1 5 1 = some 10 ∧
    alookup 5 s2wd.deletedValues = some 20 ∧
    s2commit2.1.success = true ∧
    s2commit2.1.deleted = [⟨5, 20⟩] := by
  decide

/-- C7: the sync and async contracts differ.  On the scenario
`root → t1 → t2; t2.create(9, 1); t1.commit(); t2.commit()` the sync
`commit` returns `success = true` and merges `t2`'s buffers into the closed
parent `t1`, while the async `commit` returns `success = false` with
`AncestorCommitted` and leaves the parent untouched.  (The repository's own
sync test `repro_ancestor_commit.test.ts` expects the async behaviour.) -/
theorem sync_async_commit_divergence :
    s3sync2 = .ok (⟨true, [9], [], []⟩, { s3t2 with committed := true },
      (okOr (⟨false, [], [], []⟩, s3t2, s3syncT1, s3syncR1) s3sync2).2.2.1,
      (okOr (⟨false, [], [], []⟩, s3t2, s3syncT1, s3syncR1) s3sync2).2.2.2) ∧
    (okOr (⟨false, [], [], []⟩, s3t2, s3syncT1, s3syncR1) s3sync2).2.2.1.writeBuffer =
      [(9, 1)] ∧
    (okOr (⟨false, [], [], []⟩, s3t2, s3syncT1, s3syncR1) s3sync2).2.2.1.committed = true ∧
    s3async2.1.success = false ∧
    s3async2.1.error = some .ancestorCommitted ∧
    s3async2.2.2.1.writeBuffer = [] ∧
    s3async2.2.1.committed = false := by
  decide

/-- C4 counterexample: on a Root-merge conflict the nested committer is
*not* transitioned to Closed (its `committed` flag stays `false` and the
whole transaction is returned unchanged), and on the Root's own conflicting
commit its buffers are *not* reset — contradicting the claim's final
clause. -/
theorem commit_failure_not_closed_counterexample :
    s2commit4.1.success = false ∧
    s2commit4.1.error = some .conflictErr ∧
    s2commit4.1.conflictKey = some 5 ∧
    s2commit4.2.1.committed = false ∧
    s2commit4.2.1 = s2e2 ∧
    s2rootCommit.1.success = false ∧
    s2rootCommit.1.error = some .conflictErr ∧
    s2rootCommit.2.1.writeBuffer = [(5, 40)] ∧
    s2rootCommit.2.1 = s2rootC := by
  decide

/-- C4 amended.  When a commit fails with `Conflict` or
`AncestorCommitted`, the failure is returned inside the Result with
`success = false` (not thrown) and nothing is applied anywhere: the
committing transaction, its parent and the entire Root state are returned
exactly as they were.  In particular the committing transaction is *not*
transitioned to Closed (nested) and the Root's buffers are *not* reset; the
commit may be re-attempted at the same snapshot. -/
theorem commit_failure_behaviour (child parent b : TxBuf K V) (anc rc : Bool)
    (R : RootState K V) (hc : child.committed = false) (hb : b.committed = false) :
    ((commitNested child parent anc R).1.success = false →
      (commitNested child parent anc R).2 = (child, parent, R) ∧
      ((commitNested child parent anc R).1.error = some .ancestorCommitted ∨
        (commitNested child parent anc R).1.error = some .conflictErr)) ∧
    ((commitChildOfRoot child rc R).1.success = false →
      (commitChildOfRoot child rc R).2 = (child, R) ∧
      ((commitChildOfRoot child rc R).1.error = some .ancestorCommitted ∨
        (commitChildOfRoot child rc R).1.error = some .conflictErr)) ∧
    ((commitRoot b R).1.success = false →
      (commitRoot b R).2 = (b, R) ∧ (commitRoot b R).1.error = some .conflictErr) := by
  refine ⟨?_, ?_, ?_⟩
  · unfold commitNested
    rw [hc]
    by_cases hpa : (parent.committed || anc) = true
    · simp [hpa]
    · simp only [Bool.not_eq_true] at hpa
      rcases h : nestedMerge parent child R with k | pR
      · simp [hpa, h]
      · simp [hpa, h]
  · unfold commitChildOfRoot
    rw [hc]
    by_cases hrc : rc = true
    · simp [hrc]
    · simp only [Bool.not_eq_true] at hrc
      rcases h : rootMerge R child with k | R'
      · simp [hrc, h]
      · simp [hrc, h]
  · unfold commitRoot
    rw [hb]
    by_cases hemp : (b.writeBuffer.isEmpty && b.deleteBuffer.isEmpty) = true
    · simp [hemp]
    · simp only [Bool.not_eq_true] at hemp
      rcases h : rootMerge R b with k | R'
      · simp [hemp, h]
      · simp [hemp, h]

/-- C4 witness: the amended theorem applied at the concrete conflicting
commits of scenario 2. -/
theorem commit_failure_behaviour_witness :
    s2commit4.2 = (s2e2, s2R3) ∧
    (s2commit4.1.error = some .ancestorCommitted ∨
      s2commit4.1.error = some .conflictErr) ∧
    s2rootCommit.2 = (s2rootC, s2R3) ∧ s2rootCommit.1.error = some .conflictErr := by
  have h := commit_failure_behaviour s2e2 s2root s2rootC false false s2R3
    (by decide) (by decide)
  have h1 := h.2.1 (by decide)
  have h2 := h.2.2 (by decide)
  exact ⟨h1.1, h1.2, h2.1, h2.2⟩

/-! ### C8: result classification -/

theorem mem_getResultEntries_created (b : TxBuf K V) (e : Entry K V) :
    e ∈ (getResultEntries b).1 ↔
      (e.key, e.data) ∈ b.writeBuffer ∧ e.key ∈ b.createdKeys := by
  simp only [getResultEntries, List.mem_map, List.mem_filter]
  constructor
  · rintro ⟨kv, ⟨hm, hck⟩, rfl⟩
    exact ⟨hm, by simpa using hck⟩
  · rintro ⟨hm, hck⟩
    exact ⟨(e.key, e.data), ⟨hm, by simpa using hck⟩, rfl⟩

theorem mem_getResultEntries_updated (b : TxBuf K V) (e : Entry K V) :
    e ∈ (getResultEntries b).2.1 ↔
      (e.key, e.data) ∈ b.writeBuffer ∧ e.key ∉ b.createdKeys := by
  simp only [getResultEntries, List.mem_map, List.mem_filter]
  constructor
  · rintro ⟨kv, ⟨hm, hck⟩, rfl⟩
    exact ⟨hm, by simpa using hck⟩
  · rintro ⟨hm, hck⟩
    exact ⟨(e.key, e.data), ⟨hm, by simpa using hck⟩, rfl⟩

theorem mem_getResultEntries_deleted (b : TxBuf K V) (e : Entry K V) :
    e ∈ (getResultEntries b).2.2 ↔
      e.key ∈ b.deleteBuffer ∧ e.key ∈ b.originallyExisted ∧
      alookup e.key b.deletedValues = some e.data := by
  simp only [getResultEntries, List.mem_filterMap, List.mem_filter]
  constructor
  · rintro ⟨k, ⟨hdb, hoe⟩, hf⟩
    rcases Option.map_eq_some'.mp hf with ⟨v, hv, he⟩
    cases he
    exact ⟨hdb, by simpa using hoe, hv⟩
  · rintro ⟨hdb, hoe, hv⟩
    exact ⟨e.key, ⟨hdb, by simpa using hoe⟩, by rw [hv]; rfl⟩

/-- C8.  Result classification: a Write Buffer key is reported in `created`
exactly when it is in the Created Set and in `updated` otherwise, so
`created ++ updated` is a permutation of the Write Buffer entries; a Delete
Buffer key is reported in `deleted` exactly when it is in the
Originally-Existed Set (with its Deleted-Value Map pre-image); each
successful commit flavour returns exactly the entries of its at-entry
buffers; and a `create(k, v)` followed by `delete(k)` in the same scope
leaves `k` out of `created`, `updated` and `deleted` alike. -/
theorem result_classification (b : TxBuf K V) :
    List.Perm ((getResultEntries b).1 ++ (getResultEntries b).2.1)
      (b.writeBuffer.map (fun kv => Entry.mk kv.1 kv.2)) ∧
    (∀ e : Entry K V, e ∈ (getResultEntries b).1 ↔
      (e.key, e.data) ∈ b.writeBuffer ∧ e.key ∈ b.createdKeys) ∧
    (∀ e : Entry K V, e ∈ (getResultEntries b).2.1 ↔
      (e.key, e.data) ∈ b.writeBuffer ∧ e.key ∉ b.createdKeys) ∧
    (∀ e : Entry K V, e ∈ (getResultEntries b).2.2 ↔
      e.key ∈ b.deleteBuffer ∧ e.key ∈ b.originallyExisted ∧
      alookup e.key b.deletedValues = some e.data) ∧
    (∀ parent anc R, (commitNested b parent anc R).1.success = true →
      (commitNested b parent anc R).1.created = (getResultEntries b).1 ∧
      (commitNested b parent anc R).1.updated = (getResultEntries b).2.1 ∧
      (commitNested b parent anc R).1.deleted = (getResultEntries b).2.2) ∧
    (∀ rc R, (commitChildOfRoot b rc R).1.success = true →
      (commitChildOfRoot b rc R).1.created = (getResultEntries b).1 ∧
      (commitChildOfRoot b rc R).1.updated = (getResultEntries b).2.1 ∧
      (commitChildOfRoot b rc R).1.deleted = (getResultEntries b).2.2) ∧
    (∀ R, (commitRoot b R).1.success = true →
      (commitRoot b R).1.created = (getResultEntries b).1 ∧
      (commitRoot b R).1.updated = (getResultEntries b).2.1 ∧
      (commitRoot b R).1.deleted = (getResultEntries b).2.2) ∧
    (∀ R R' k v b1 b2, createOp b R k v = .ok b1 → deleteOp b1 R' k = .ok b2 →
      (∀ e ∈ (getResultEntries b2).1, e.key ≠ k) ∧
      (∀ e ∈ (getResultEntries b2).2.1, e.key ≠ k) ∧
      (∀ e ∈ (getResultEntries b2).2.2, e.key ≠ k)) := by
  refine ⟨?_, mem_getResultEntries_created b, mem_getResultEntries_updated b,
    mem_getResultEntries_deleted b, ?_, ?_, ?_, ?_⟩
  · simp only [getResultEntries]
    rw [← List.map_append]
    refine List.Perm.map _ ?_
    have h := List.filter_append_perm (fun kv : K × V => decide (kv.1 ∈ b.createdKeys))
      b.writeBuffer
    refine List.Perm.trans ?_ h
    refine List.Perm.append_left _ ?_
    refine List.Perm.of_eq ?_
    refine List.filter_congr ?_
    intro kv _
    simp
  · intro parent anc R hs
    unfold commitNested at hs ⊢
    by_cases hc : b.committed = true
    · simp [hc] at hs
    · simp only [Bool.not_eq_true] at hc
      rw [hc] at hs ⊢
      by_cases hpa : (parent.committed || anc) = true
      · simp [hpa] at hs
      · simp only [Bool.not_eq_true] at hpa
        rcases h : nestedMerge parent b R with k | pR
        · rw [h] at hs; simp [hpa] at hs
        · simp [hpa, h]
  · intro rc R hs
    unfold commitChildOfRoot at hs ⊢
    by_cases hc : b.committed = true
    · simp [hc] at hs
    · simp only [Bool.not_eq_true] at hc
      rw [hc] at hs ⊢
      by_cases hrc : rc = true
      · simp [hrc] at hs
      · simp only [Bool.not_eq_true] at hrc
        rcases h : rootMerge R b with k | R'
        · rw [h] at hs; simp [hrc] at hs
        · simp [hrc, h]
  · intro R hs
    unfold commitRoot at hs ⊢
    by_cases hc : b.committed = true
    · simp [hc] at hs
    · simp only [Bool.not_eq_true] at hc
      rw [hc] at hs ⊢
      by_cases hemp : (b.writeBuffer.isEmpty && b.deleteBuffer.isEmpty) = true
      · simp [hemp]
      · simp only [Bool.not_eq_true] at hemp
        rcases h : rootMerge R b with k | R'
        · rw [h] at hs; simp [hemp] at hs
        · simp [hemp, h]
  · intro R R' k v b1 b2 hcr hdel
    unfold createOp at hcr
    by_cases hc : b.committed = true
    · simp [hc] at hcr
    · simp only [Bool.not_eq_true] at hc
      rw [hc] at hcr
      rw [if_neg (by simp)] at hcr
      by_cases hcond : ((alookup k b.writeBuffer).isSome ||
          decide (k ∉ b.deleteBuffer) && (txRead b R k).isSome) = true
      · rw [if_pos hcond] at hcr
        simp at hcr
      · rw [if_neg hcond] at hcr
        simp only [Except.ok.injEq] at hcr
        have hwb : alookup k b.writeBuffer = none := by
          rcases hkk : alookup k b.writeBuffer with _ | vv
          · rfl
          · exact absurd (by rw [hkk]; simp) hcond
        unfold deleteOp at hdel
        have hb1c : b1.committed = false := by rw [← hcr]; simpa [bufferCreate] using hc
        rw [hb1c] at hdel
        rw [if_neg (by simp)] at hdel
        have hb1wb : alookup k b1.writeBuffer = some v := by
          rw [← hcr]; simp [bufferCreate, alookup_aset_self]
        rw [hb1wb] at hdel
        have hb1ck : k ∈ b1.createdKeys := by
          rw [← hcr]; simp [bufferCreate, mem_sadd]
        simp only [Bool.not_true, Bool.false_or, decide_eq_true_eq] at hdel
        rw [if_neg (by simp [hb1ck])] at hdel
        simp only [Except.ok.injEq] at hdel
        have hwb2 : b2.writeBuffer = b.writeBuffer := by
          rw [← hdel]
          simp only [bufferDelete]
          have : b1.writeBuffer = b.writeBuffer ++ [(k, v)] := by
            rw [← hcr]
            simp only [bufferCreate]
            exact aset_of_alookup_none hwb v
          rw [this]
          exact aremove_append_of_alookup_none hwb v
        have hoe2 : k ∉ b2.originallyExisted := by
          rw [← hdel]
          simp only [bufferDelete]
          have : b1.originallyExisted = sremove k b.originallyExisted := by
            rw [← hcr]; simp [bufferCreate]
          rw [this]
          simp [mem_sremove]
        refine ⟨?_, ?_, ?_⟩
        · intro e he hek
          rcases (mem_getResultEntries_created _ e).mp he with ⟨hm, _⟩
          rw [hwb2, hek] at hm
          rw [alookup_eq_none_iff] at hwb
          exact hwb _ hm rfl
        · intro e he hek
          rcases (mem_getResultEntries_updated _ e).mp he with ⟨hm, _⟩
          rw [hwb2, hek] at hm
          rw [alookup_eq_none_iff] at hwb
          exact hwb _ hm rfl
        · intro e he hek
          rcases (mem_getResultEntries_deleted _ e).mp he with ⟨_, hoe, _⟩
          rw [hek] at hoe
          exact hoe2 hoe

/-- C8 witness: the classification theorem applied to the write-then-delete
transaction of scenario 2 and to the concrete create-then-delete pair. -/
theorem result_classification_witness :
    s2commit2.1.success = true ∧
    s2commit2.1.created = (getResultEntries s2wd).1 ∧
    s2commit2.1.deleted = (getResultEntries s2wd).2.2 ∧
    (∀ e ∈ (getResultEntries w8b2).1, e.key ≠ 3) ∧
    (∀ e ∈ (getResultEntries w8b2).2.2, e.key ≠ 3) := by
  have h := result_classification (K := Nat) (V := Nat) s2wd
  have hcommit := h.2.2.2.2.2.1 false s2mkD.2 (by decide)
  have h8 := result_classification (K := Nat) (V := Nat) (rootBuf Nat Nat)
  have hcd := h8.2.2.2.2.2.2.2 (freshRoot []) (freshRoot []) 3 7 w8b1 w8b2
    (by decide) (by decide)
  exact ⟨by decide, hcommit.1, hcommit.2.2, hcd.1, hcd.2.2⟩

/-! ### Field lemmas for the disk operations -/

theorem alookup_aremove_self_of_nodup {k : K} {l : List (K × V)}
    (h : (l.map Prod.fst).Nodup) : alookup k (aremove k l) = none := by
  induction l with
  | nil => simp [aremove, alookup]
  | cons p rest ih =>
    simp only [List.map_cons, List.nodup_cons] at h
    by_cases hp : p.1 = k
    · rw [aremove, if_pos hp, alookup_eq_none_iff]
      intro q hq hqk
      exact h.1 (by rw [hp]; exact hqk ▸ List.mem_map_of_mem Prod.fst hq)
    · rw [aremove, if_neg hp, alookup, if_neg hp]
      exact ih h.2

theorem diskWrite_version (R : RootState K V) (k : K) (val : V) (w : Nat) :
    (diskWrite R k val w).version = R.version := by
  unfold diskWrite
  rcases h : alookup k R.backend with _ | c <;> simp [h]

theorem diskWrite_active (R : RootState K V) (k : K) (val : V) (w : Nat) :
    (diskWrite R k val w).activeTransactions = R.activeTransactions := by
  unfold diskWrite
  rcases h : alookup k R.backend with _ | c <;> simp [h]

theorem diskWrite_idx_self (R : RootState K V) (k : K) (val : V) (w : Nat) :
    alookup k (diskWrite R k val w).versionIndex =
      some ((alookup k R.versionIndex).getD [] ++ [VRec.mk w true]) := by
  unfold diskWrite
  rcases h : alookup k R.backend with _ | c <;> simp [h, alookup_aset_self]

theorem diskWrite_idx_ne {k k' : K} (hne : k' ≠ k) (R : RootState K V) (val : V) (w : Nat) :
    alookup k' (diskWrite R k val w).versionIndex = alookup k' R.versionIndex := by
  unfold diskWrite
  rcases h : alookup k R.backend with _ | c <;> simp [h, alookup_aset_ne hne]

theorem diskWrite_backend_self (R : RootState K V) (k : K) (val : V) (w : Nat) :
    alookup k (diskWrite R k val w).backend = some val := by
  unfold diskWrite
  rcases h : alookup k R.backend with _ | c <;> simp [h, alookup_aset_self]

theorem diskWrite_backend_ne {k k' : K} (hne : k' ≠ k) (R : RootState K V) (val : V) (w : Nat) :
    alookup k' (diskWrite R k val w).backend = alookup k' R.backend := by
  unfold diskWrite
  rcases h : alookup k R.backend with _ | c <;> simp [h, alookup_aset_ne hne]

theorem diskWrite_ud_self (R : RootState K V) (k : K) (val : V) (w : Nat) :
    udLookup (diskWrite R k val w) k =
      udLookup R k ++
        (match alookup k R.backend with
          | some b => [UEntry.mk b w]
          | none => []) := by
  unfold diskWrite
  rcases h : alookup k R.backend with _ | c <;> simp [h, udLookup, alookup_aset_self]

theorem diskWrite_ud_ne {k k' : K} (hne : k' ≠ k) (R : RootState K V) (val : V) (w : Nat) :
    udLookup (diskWrite R k val w) k' = udLookup R k' := by
  unfold diskWrite
  rcases h : alookup k R.backend with _ | c <;> simp [h, udLookup, alookup_aset_ne hne]

theorem diskDelete_version (R : RootState K V) (k : K) (w : Nat) :
    (diskDelete R k w).version = R.version := by
  unfold diskDelete
  rcases h : alookup k R.backend with _ | c <;> simp [h]

theorem diskDelete_active (R : RootState K V) (k : K) (w : Nat) :
    (diskDelete R k w).activeTransactions = R.activeTransactions := by
  unfold diskDelete
  rcases h : alookup k R.backend with _ | c <;> simp [h]

theorem diskDelete_idx_self (R : RootState K V) (k : K) (w : Nat) :
    alookup k (diskDelete R k w).versionIndex =
      some ((alookup k R.versionIndex).getD [] ++ [VRec.mk w false]) := by
  unfold diskDelete
  rcases h : alookup k R.backend with _ | c <;> simp [h, alookup_aset_self]

theorem diskDelete_idx_ne {k k' : K} (hne : k' ≠ k) (R : RootState K V) (w : Nat) :
    alookup k' (diskDelete R k w).versionIndex = alookup k' R.versionIndex := by
  unfold diskDelete
  rcases h : alookup k R.backend with _ | c <;> simp [h, alookup_aset_ne hne]

theorem diskDelete_backend_self_of_nodup (R : RootState K V) (k : K) (w : Nat)
    (hnd : (R.backend.map Prod.fst).Nodup) :
    alookup k (diskDelete R k w).backend = none := by
  unfold diskDelete
  rcases h : alookup k R.backend with _ | c <;>
    simp [h, alookup_aremove_self_of_nodup hnd]

theorem diskDelete_backend_ne {k k' : K} (hne : k' ≠ k) (R : RootState K V) (w : Nat) :
    alookup k' (diskDelete R k w).backend = alookup k' R.backend := by
  unfold diskDelete
  rcases h : alookup k R.backend with _ | c <;> simp [h, alookup_aremove_ne hne]

theorem diskDelete_ud_self (R : RootState K V) (k : K) (w : Nat) :
    udLookup (diskDelete R k w) k =
      udLookup R k ++
        (match alookup k R.backend with
          | some b => [UEntry.mk b w]
          | none => []) := by
  unfold diskDelete
  rcases h : alookup k R.backend with _ | c <;> simp [h, udLookup, alookup_aset_self]

theorem diskDelete_ud_ne {k k' : K} (hne : k' ≠ k) (R : RootState K V) (w : Nat) :
    udLookup (diskDelete R k w) k' = udLookup R k' := by
  unfold diskDelete
  rcases h : alookup k R.backend with _ | c <;> simp [h, udLookup, alookup_aset_ne hne]

theorem cleanup_version (R : RootState K V) :
    (cleanupDeletedCache R).version = R.version := by
  unfold cleanupDeletedCache
  by_cases h : R.deletedCache.isEmpty <;> simp [h]

theorem cleanup_idx (R : RootState K V) :
    (cleanupDeletedCache R).versionIndex = R.versionIndex := by
  unfold cleanupDeletedCache
  by_cases h : R.deletedCache.isEmpty <;> simp [h]

theorem cleanup_backend (R : RootState K V) :
    (cleanupDeletedCache R).backend = R.backend := by
  unfold cleanupDeletedCache
  by_cases h : R.deletedCache.isEmpty <;> simp [h]

theorem cleanup_active (R : RootState K V) :
    (cleanupDeletedCache R).activeTransactions = R.activeTransactions := by
  unfold cleanupDeletedCache
  by_cases h : R.deletedCache.isEmpty <;> simp [h]

/-! ### Fold lemmas for the apply phase -/

theorem applyWrites_version (ws : List (K × V)) (R : RootState K V) (w : Nat) :
    (applyWrites R ws w).version = R.version := by
  induction ws generalizing R with
  | nil => rfl
  | cons kv rest ih =>
    rw [applyWrites, List.foldl_cons, ← applyWrites]
    rw [ih, diskWrite_version]

theorem applyWrites_active (ws : List (K × V)) (R : RootState K V) (w : Nat) :
    (applyWrites R ws w).activeTransactions = R.activeTransactions := by
  induction ws generalizing R with
  | nil => rfl
  | cons kv rest ih =>
    rw [applyWrites, List.foldl_cons, ← applyWrites]
    rw [ih, diskWrite_active]

theorem applyDeletes_version (ds : List K) (R : RootState K V) (w : Nat) :
    (applyDeletes R ds w).version = R.version := by
  induction ds generalizing R with
  | nil => rfl
  | cons k rest ih =>
    rw [applyDeletes, List.foldl_cons, ← applyDeletes]
    rw [ih, diskDelete_version]

theorem applyDeletes_active (ds : List K) (R : RootState K V) (w : Nat) :
    (applyDeletes R ds w).activeTransactions = R.activeTransactions := by
  induction ds generalizing R with
  | nil => rfl
  | cons k rest ih =>
    rw [applyDeletes, List.foldl_cons, ← applyDeletes]
    rw [ih, diskDelete_active]

theorem applyWrites_idx_not_mem {k : K} {ws : List (K × V)}
    (h : k ∉ ws.map Prod.fst) (R : RootState K V) (w : Nat) :
    alookup k (applyWrites R ws w).versionIndex = alookup k R.versionIndex := by
  induction ws generalizing R with
  | nil => rfl
  | cons kv rest ih =>
    simp only [List.map_cons, List.mem_cons, not_or] at h
    rw [applyWrites, List.foldl_cons, ← applyWrites]
    rw [ih (by simpa using h.2), diskWrite_idx_ne (by simpa using h.1)]

theorem applyWrites_backend_not_mem {k : K} {ws : List (K × V)}
    (h : k ∉ ws.map Prod.fst) (R : RootState K V) (w : Nat) :
    alookup k (applyWrites R ws w).backend = alookup k R.backend := by
  induction ws generalizing R with
  | nil => rfl
  | cons kv rest ih =>
    simp only [List.map_cons, List.mem_cons, not_or] at h
    rw [applyWrites, List.foldl_cons, ← applyWrites]
    rw [ih (by simpa using h.2), diskWrite_backend_ne (by simpa using h.1)]

theorem applyWrites_ud_not_mem {k : K} {ws : List (K × V)}
    (h : k ∉ ws.map Prod.fst) (R : RootState K V) (w : Nat) :
    udLookup (applyWrites R ws w) k = udLookup R k := by
  induction ws generalizing R with
  | nil => rfl
  | cons kv rest ih =>
    simp only [List.map_cons, List.mem_cons, not_or] at h
    rw [applyWrites, List.foldl_cons, ← applyWrites]
    rw [ih (by simpa using h.2), diskWrite_ud_ne (by simpa using h.1)]

theorem applyDeletes_idx_not_mem {k : K} {ds : List K}
    (h : k ∉ ds) (R : RootState K V) (w : Nat) :
    alookup k (applyDeletes R ds w).versionIndex = alookup k R.versionIndex := by
  induction ds generalizing R with
  | nil => rfl
  | cons d rest ih =>
    simp only [List.mem_cons, not_or] at h
    rw [applyDeletes, List.foldl_cons, ← applyDeletes]
    rw [ih h.2, diskDelete_idx_ne h.1]

theorem applyDeletes_backend_not_mem {k : K} {ds : List K}
    (h : k ∉ ds) (R : RootState K V) (w : Nat) :
    alookup k (applyDeletes R ds w).backend = alookup k R.backend := by
  induction ds generalizing R with
  | nil => rfl
  | cons d rest ih =>
    simp only [List.mem_cons, not_or] at h
    rw [applyDeletes, List.foldl_cons, ← applyDeletes]
    rw [ih h.2, diskDelete_backend_ne h.1]

theorem applyDeletes_ud_not_mem {k : K} {ds : List K}
    (h : k ∉ ds) (R : RootState K V) (w : Nat) :
    udLookup (applyDeletes R ds w) k = udLookup R k := by
  induction ds generalizing R with
  | nil => rfl
  | cons d rest ih =>
    simp only [List.mem_cons, not_or] at h
    rw [applyDeletes, List.foldl_cons, ← applyDeletes]
    rw [ih h.2, diskDelete_ud_ne h.1]

/-- After the write loop, a written key's index history ends at the freshly
allocated version. -/
theorem applyWrites_last_of_mem {k : K} {ws : List (K × V)}
    (h : k ∈ ws.map Prod.fst) (R : RootState K V) (w : Nat) :
    ∃ l r, alookup k (applyWrites R ws w).versionIndex = some l ∧
      l.getLast? = some r ∧ r.version = w := by
  induction ws generalizing R with
  | nil => simp at h
  | cons kv rest ih =>
    rw [applyWrites, List.foldl_cons, ← applyWrites]
    by_cases hmem : k ∈ rest.map Prod.fst
    · exact ih hmem _
    · have hk : kv.1 = k := by
        simp only [List.map_cons, List.mem_cons] at h
        rcases h with h1 | h1
        · exact h1.symm
        · exact absurd h1 hmem
      subst hk
      refine ⟨(alookup kv.1 R.versionIndex).getD [] ++ [VRec.mk w true], VRec.mk w true,
        ?_, by simp, rfl⟩
      rw [applyWrites_idx_not_mem hmem, diskWrite_idx_self]

/-- After the delete loop, a deleted key's index history ends at the freshly
allocated version. -/
theorem applyDeletes_last_of_mem {k : K} {ds : List K}
    (h : k ∈ ds) (R : RootState K V) (w : Nat) :
    ∃ l r, alookup k (applyDeletes R ds w).versionIndex = some l ∧
      l.getLast? = some r ∧ r.version = w := by
  induction ds generalizing R with
  | nil => simp at h
  | cons d rest ih =>
    rw [applyDeletes, List.foldl_cons, ← applyDeletes]
    by_cases hmem : k ∈ rest
    · exact ih hmem _
    · have hk : d = k := by
        rcases List.mem_cons.mp h with h1 | h1
        · exact h1.symm
        · exact absurd h1 hmem
      subst hk
      refine ⟨(alookup d R.versionIndex).getD [] ++ [VRec.mk w false], VRec.mk w false,
        ?_, by simp, rfl⟩
      rw [applyDeletes_idx_not_mem hmem, diskDelete_idx_self]

/-! ### Root-merge facts -/

theorem keyConflicts_iff (R : RootState K V) (sv : Nat) (k : K) :
    keyConflicts R sv k = true ↔
      ∃ l r, alookup k R.versionIndex = some l ∧ l.getLast? = some r ∧
        sv < r.version := by
  unfold keyConflicts
  rcases hl : alookup k R.versionIndex with _ | l
  · simp
  · rcases hr : l.getLast? with _ | r
    · simp [hr]
    · simp [hr]

theorem keyConflicts_eq_of_lookup {R R' : RootState K V} {k : K}
    (h : alookup k R'.versionIndex = alookup k R.versionIndex) (sv : Nat) :
    keyConflicts R' sv k = keyConflicts R sv k := by
  unfold keyConflicts
  rw [h]

theorem rootMerge_ok_version {R R' : RootState K V} {c : TxBuf K V}
    (h : rootMerge R c = .ok R') : R'.version = R.version + 1 := by
  unfold rootMerge at h
  rcases hf : (modifiedKeys c).find? (keyConflicts R c.snapshotVersion) with _ | k
  · rw [hf] at h
    simp only [Except.ok.injEq] at h
    rw [← h, cleanup_version]
  · rw [hf] at h
    simp at h

theorem rootMerge_ok_last_of_touches {R R' : RootState K V} {c : TxBuf K V} {k : K}
    (h : rootMerge R c = .ok R') (ht : touches c k) :
    ∃ l r, alookup k R'.versionIndex = some l ∧ l.getLast? = some r ∧
      r.version = R.version + 1 := by
  unfold rootMerge at h
  rcases hf : (modifiedKeys c).find? (keyConflicts R c.snapshotVersion) with _ | kk
  · rw [hf] at h
    simp only [Except.ok.injEq] at h
    rw [← h, cleanup_idx]
    by_cases hdb : k ∈ c.deleteBuffer
    · exact applyDeletes_last_of_mem hdb _ _
    · rcases ht with hwb | hdb'
      · rcases applyWrites_last_of_mem hwb R (R.version + 1) with ⟨l, r, hl, hr, hv⟩
        exact ⟨l, r, by rw [applyDeletes_idx_not_mem hdb]; exact hl, hr, hv⟩
      · exact absurd hdb' hdb
  · rw [hf] at h
    simp at h

theorem rootMerge_ok_idx_not_touched {R R' : RootState K V} {c : TxBuf K V} {k : K}
    (h : rootMerge R c = .ok R') (ht : ¬ touches c k) :
    alookup k R'.versionIndex = alookup k R.versionIndex := by
  unfold touches at ht
  push_neg at ht
  unfold rootMerge at h
  rcases hf : (modifiedKeys c).find? (keyConflicts R c.snapshotVersion) with _ | kk
  · rw [hf] at h
    simp only [Except.ok.injEq] at h
    rw [← h, cleanup_idx]
    rw [applyDeletes_idx_not_mem ht.2, applyWrites_idx_not_mem ht.1]
  · rw [hf] at h
    simp at h

theorem rootMerge_error_iff (R : RootState K V) (c : TxBuf K V) :
    (∃ k, rootMerge R c = .error k) ↔
      ∃ k, touches c k ∧ keyConflicts R c.snapshotVersion k = true := by
  unfold rootMerge
  rcases hf : (modifiedKeys c).find? (keyConflicts R c.snapshotVersion) with _ | kk
  · simp only [hf]
    constructor
    · rintro ⟨k, hk⟩
      simp at hk
    · rintro ⟨k, hk, hc⟩
      rw [List.find?_eq_none] at hf
      exact absurd hc (by simpa using hf k ((mem_modifiedKeys c k).mpr hk))

  · simp only [hf]
    constructor
    · rintro ⟨k, hk⟩
      exact ⟨kk, (mem_modifiedKeys c kk).mp (List.mem_of_find?_eq_some hf),
        List.find?_some hf⟩
    · rintro ⟨k, hk, hc⟩
      exact ⟨kk, rfl⟩

theorem rootMerge_error_of_conflict {R : RootState K V} {c : TxBuf K V} {k : K}
    (ht : touches c k) (hc : keyConflicts R c.snapshotVersion k = true) :
    ∃ kk, rootMerge R c = .error kk :=
  (rootMerge_error_iff R c).mpr ⟨k, ht, hc⟩

/-- Once a key is conflicted relative to the shared snapshot, every further
merge that touches it fails. -/
theorem runRootMerges_all_fail {k0 : K} {v : Nat} {txs : List (TxBuf K V)}
    (hall : ∀ c ∈ txs, c.snapshotVersion = v ∧ touches c k0) :
    ∀ R : RootState K V, keyConflicts R v k0 = true →
      ∀ o ∈ runRootMerges R txs, o.isSome = true := by
  induction txs with
  | nil => intro R _ o ho; simp [runRootMerges] at ho
  | cons c rest ih =>
    intro R hconf o ho
    have hc := hall c (List.mem_cons_self _ _)
    rcases rootMerge_error_of_conflict hc.2 (hc.1 ▸ hconf) with ⟨kk, hkk⟩
    rw [runRootMerges, hkk] at ho
    rcases List.mem_cons.mp ho with rfl | ho'
    · rfl
    · exact ih (fun d hd => hall d (List.mem_cons_of_mem _ hd)) R hconf o ho'

/-- Among same-snapshot committers of a common key, at most one sequential
Root merge succeeds. -/
theorem runRootMerges_at_most_one {k0 : K} {v : Nat} {txs : List (TxBuf K V)} :
    ∀ R : RootState K V, v ≤ R.version →
      (∀ c ∈ txs, c.snapshotVersion = v ∧ touches c k0) →
      ((runRootMerges R txs).countP (fun o => o.isNone)) ≤ 1 := by
  induction txs with
  | nil => intro R _ _; simp [runRootMerges]
  | cons d rest ih =>
    intro R hv hall
    rcases hm : rootMerge R d with kerr | R'
    · rw [runRootMerges, hm]
      rw [List.countP_cons_of_neg _ _ (by simp)]
      exact ih R hv (fun e he => hall e (List.mem_cons_of_mem _ he))
    · rw [runRootMerges, hm]
      rw [List.countP_cons_of_pos _ _ (by simp)]
      have hd := hall d (List.mem_cons_self _ _)
      rcases rootMerge_ok_last_of_touches hm hd.2 with ⟨l, r, hl, hr, hver⟩
      have hconf : keyConflicts R' v k0 = true := by
        rw [keyConflicts_iff]
        exact ⟨l, r, hl, hr, by rw [hver]; exact Nat.lt_succ_of_le hv⟩
      have hfail := runRootMerges_all_fail
        (fun e he => hall e (List.mem_cons_of_mem _ he)) R' hconf
      have hzero : ((runRootMerges R' rest).countP (fun o => o.isNone)) = 0 := by
        rw [List.countP_eq_zero]
        intro o ho
        have hs := hfail o ho
        rcases o with _ | ok
        · simp at hs
        · simp
      rw [hzero]

/-- Pairwise key-disjoint committers whose keys are initially unconflicted
all merge successfully. -/
theorem runRootMerges_disjoint_all_ok {dtxs : List (TxBuf K V)} :
    ∀ R : RootState K V,
      dtxs.Pairwise (fun c1 c2 => ∀ kk, touches c1 kk → ¬ touches c2 kk) →
      (∀ d ∈ dtxs, ∀ kk, touches d kk →
        keyConflicts R d.snapshotVersion kk = false) →
      ∀ o ∈ runRootMerges R dtxs, o = none := by
  induction dtxs with
  | nil => intro R _ _ o ho; simp [runRootMerges] at ho
  | cons d rest ih =>
    intro R hdisj hclean o ho
    have hok : ∃ R', rootMerge R d = .ok R' := by
      unfold rootMerge
      rcases hf : (modifiedKeys d).find? (keyConflicts R d.snapshotVersion) with _ | kk
      · exact ⟨_, rfl⟩
      · have hmem := List.mem_of_find?_eq_some hf
        have hsat := List.find?_some hf
        have := hclean d (List.mem_cons_self _ _) kk ((mem_modifiedKeys d kk).mp hmem)
        rw [this] at hsat
        simp at hsat
    rcases hok with ⟨R', hm⟩
    rw [runRootMerges, hm] at ho
    rcases List.mem_cons.mp ho with rfl | ho'
    · rfl
    · refine ih R' (List.Pairwise.sublist (List.sublist_cons_self d rest) hdisj) ?_ o ho'
      intro e he kk htk
      have hnot := (List.pairwise_cons.mp hdisj).1 e he kk
      have hne : ¬ touches d kk := fun hdk => hnot hdk htk
      rw [keyConflicts_eq_of_lookup (rootMerge_ok_idx_not_touched hm hne)]
      exact hclean e (List.mem_cons_of_mem _ he) kk htk

/-- C2.  Root-merge conflict detection is exactly the last-version test:
a Root merge fails (with a conflicting key) iff some key in the committer's
Write Buffer or Delete Buffer has a non-empty Version Index history whose
last version strictly exceeds the committer's snapshot version.
Consequently, among transactions at the same snapshot `v ≤ R.version` all
modifying a common key `k0`, at most one of the sequential Root merges
succeeds (each failing one returns a conflicting key), while transactions
with pairwise disjoint, initially unconflicted key sets all succeed. -/
theorem root_conflict_detection (R : RootState K V) (c : TxBuf K V)
    (txs dtxs : List (TxBuf K V)) (k0 : K) (v : Nat)
    (hv : v ≤ R.version)
    (hall : ∀ d ∈ txs, d.snapshotVersion = v ∧ touches d k0)
    (hdisj : dtxs.Pairwise (fun c1 c2 => ∀ kk, touches c1 kk → ¬ touches c2 kk))
    (hclean : ∀ d ∈ dtxs, ∀ kk, touches d kk →
      keyConflicts R d.snapshotVersion kk = false) :
    ((∃ k, rootMerge R c = .error k) ↔
      ∃ k, (k ∈ c.writeBuffer.map Prod.fst ∨ k ∈ c.deleteBuffer) ∧
        ∃ l r, alookup k R.versionIndex = some l ∧ l.getLast? = some r ∧
          c.snapshotVersion < r.version) ∧
    ((runRootMerges R txs).countP (fun o => o.isNone)) ≤ 1 ∧
    (∀ o ∈ runRootMerges R dtxs, o = none) := by
  refine ⟨?_, runRootMerges_at_most_one R hv hall,
    runRootMerges_disjoint_all_ok R hdisj hclean⟩
  rw [rootMerge_error_iff]
  unfold touches
  constructor
  · rintro ⟨k, hk, hc⟩
    exact ⟨k, hk, (keyConflicts_iff R c.snapshotVersion k).mp hc⟩
  · rintro ⟨k, hk, hc⟩
    exact ⟨k, hk, (keyConflicts_iff R c.snapshotVersion k).mpr hc⟩

/-- C2 witness: the detection theorem applied over the concrete state
`s2R1` (key 5 last committed at version 1). -/
theorem root_conflict_detection_witness :
    (∃ k, rootMerge s2R1 w2c = .error k) ∧
    ((runRootMerges s2R1 [w2a, w2b]).countP (fun o => o.isNone)) ≤ 1 ∧
    (∀ o ∈ runRootMerges s2R1 [w2d1, w2d2], o = none) := by
  have hdisj : ([w2d1, w2d2]).Pairwise
      (fun c1 c2 => ∀ kk, touches c1 kk → ¬ touches c2 kk) := by
    refine List.pairwise_cons.mpr ⟨?_, ?_⟩
    · intro c2 hc2 kk htk
      simp only [List.mem_singleton] at hc2
      subst hc2
      have hkk : kk = 6 := by
        rcases htk with h1 | h1
        · simpa [w2d1] using h1
        · simp [w2d1] at h1
      subst hkk
      decide
    · refine List.pairwise_cons.mpr ⟨?_, List.Pairwise.nil⟩
      intro c2 hc2
      simp at hc2
  have hclean : ∀ d ∈ [w2d1, w2d2], ∀ kk, touches d kk →
      keyConflicts s2R1 d.snapshotVersion kk = false := by
    intro d hd kk htk
    rcases List.mem_cons.mp hd with rfl | hd'
    · have hkk : kk = 6 := by
        rcases htk with h1 | h1
        · simpa [w2d1] using h1
        · simp [w2d1] at h1
      subst hkk
      decide
    · rcases List.mem_cons.mp hd' with rfl | hd''
      · have hkk : kk = 7 := by
          rcases htk with h1 | h1
          · simpa [w2d2] using h1
          · simp [w2d2] at h1
        subst hkk
        decide
      · simp at hd''
  have h := root_conflict_detection s2R1 w2c [w2a, w2b] [w2d1, w2d2] 5 1
    (by decide) (by decide) hdisj hclean
  refine ⟨h.1.mpr ⟨5, by decide, [⟨1, true⟩], ⟨1, true⟩, by decide, by decide, by decide⟩,
    h.2.1, h.2.2⟩

/-! ### Walk lemmas -/

theorem walkGo_fst (v : Nat) (l : List VRec) (acc : Option VRec) :
    (walkGo v l acc).1 =
      match (walkGo v l none).1 with
      | some t => some t
      | none => acc := by
  induction l generalizing acc with
  | nil => rfl
  | cons r rest ih =>
    unfold walkGo
    by_cases hr : r.version ≤ v
    · rw [if_pos hr, if_pos hr, ih (some r)]
      rcases h : (walkGo v rest none).1 with _ | t
      · rfl
      · rfl
    · rw [if_neg hr, if_neg hr]

theorem walkGo_snd (v : Nat) (l : List VRec) (acc : Option VRec) :
    (walkGo v l acc).2 = (walkGo v l none).2 := by
  induction l generalizing acc with
  | nil => rfl
  | cons r rest ih =>
    unfold walkGo
    by_cases hr : r.version ≤ v
    · rw [if_pos hr, if_pos hr, ih (some r), ih none]
    · rw [if_neg hr, if_neg hr]

theorem walk_next_eq_find (l : List VRec) (v : Nat) :
    (walkIndex l v).2 = l.find? (fun r => decide (v < r.version)) := by
  induction l with
  | nil => rfl
  | cons r rest ih =>
    unfold walkIndex walkGo
    by_cases hr : r.version ≤ v
    · rw [if_pos hr]
      rw [List.find?_cons_of_neg _ (by simpa using hr)]
      rw [walkGo_snd v rest (some r)]
      exact ih
    · rw [if_neg hr]
      rw [List.find?_cons_of_pos _ (by simpa using Nat.lt_of_not_le hr)]

theorem walk_next_some {l : List VRec} {v : Nat} {s : VRec}
    (h : (walkIndex l v).2 = some s) : s ∈ l ∧ v < s.version := by
  rw [walk_next_eq_find] at h
  exact ⟨List.mem_of_find?_eq_some h, by simpa using List.find?_some h⟩

theorem walk_next_none_iff (l : List VRec) (v : Nat) :
    (walkIndex l v).2 = none ↔ ∀ r ∈ l, r.version ≤ v := by
  rw [walk_next_eq_find, List.find?_eq_none]
  constructor
  · intro h r hr
    exact Nat.le_of_not_lt (by simpa using h r hr)
  · intro h r hr
    simpa using Nat.not_lt_of_le (h r hr)

theorem walk_fst_mem (l : List VRec) (v : Nat) (t : VRec) :
    (walkIndex l v).1 = some t → t ∈ l ∧ t.version ≤ v := by
  unfold walkIndex
  induction l with
  | nil => intro h; simp [walkGo] at h
  | cons r rest ih =>
    intro h
    rw [walkGo] at h
    by_cases hr : r.version ≤ v
    · rw [if_pos hr, walkGo_fst] at h
      rcases ht : (walkGo v rest none).1 with _ | t'
      · rw [ht] at h
        simp only [Option.some.injEq] at h
        exact ⟨h ▸ List.mem_cons_self _ _, h ▸ hr⟩
      · rw [ht] at h
        rcases ih (by rw [ht]; exact h) with ⟨hm, hv⟩
        exact ⟨List.mem_cons_of_mem _ hm, hv⟩
    · rw [if_neg hr] at h
      simp at h

theorem walk_fst_of_all_le (l : List VRec) (v : Nat) :
    (∀ r ∈ l, r.version ≤ v) → (walkIndex l v).1 = l.getLast? := by
  unfold walkIndex
  induction l with
  | nil => intro _; rfl
  | cons r rest ih =>
    intro h
    rw [walkGo, if_pos (h r (List.mem_cons_self _ _)), walkGo_fst]
    rw [ih (fun x hx => h x (List.mem_cons_of_mem _ hx))]
    rcases rest with _ | ⟨a, t⟩
    · simp
    · rw [List.getLast?_cons_cons]
      rcases hg : (a :: t).getLast? with _ | g
      · exact absurd (List.getLast?_eq_none_iff.mp hg) (by simp)
      · rfl

theorem walk_adjacent_go (l : List VRec) (v : Nat) (a t s : VRec) :
    (walkGo v l (some a)).1 = some t → (walkGo v l (some a)).2 = some s →
    (t, s) ∈ l.zip l.tail ∨ (t = a ∧ l.head? = some s) := by
  induction l generalizing a with
  | nil => intro h1 h2; simp [walkGo] at h2
  | cons r rest ih =>
    intro h1 h2
    rw [walkGo] at h1 h2
    by_cases hr : r.version ≤ v
    · rw [if_pos hr] at h1 h2
      rcases ih r h1 h2 with hin | ⟨hta, hh⟩
      · left
        rcases rest with _ | ⟨b, t'⟩
        · simp at hin
        · exact List.mem_cons_of_mem _ hin
      · left
        rcases rest with _ | ⟨b, t'⟩
        · simp at hh
        · simp only [List.head?_cons, Option.some.injEq] at hh
          subst hta
          subst hh
          exact List.mem_cons_self _ _
    · rw [if_neg hr] at h1 h2
      simp only [Option.some.injEq] at h1 h2
      right
      exact ⟨h1.symm, by rw [List.head?_cons, h2]⟩

theorem walk_adjacent (l : List VRec) (v : Nat) (t s : VRec) :
    (walkIndex l v).1 = some t → (walkIndex l v).2 = some s →
    (t, s) ∈ l.zip l.tail := by
  unfold walkIndex
  intro h1 h2
  rcases l with _ | ⟨r, rest⟩
  · simp [walkGo] at h2
  · rw [walkGo] at h1 h2
    by_cases hr : r.version ≤ v
    · rw [if_pos hr] at h1 h2
      rcases walk_adjacent_go rest v r t s h1 h2 with hin | ⟨hta, hh⟩
      · rcases rest with _ | ⟨b, t'⟩
        · simp at hin
        · exact List.mem_cons_of_mem _ hin
      · rcases rest with _ | ⟨b, t'⟩
        · simp at hh
        · simp only [List.head?_cons, Option.some.injEq] at hh
          subst hta
          subst hh
          exact List.mem_cons_self _ _
    · rw [if_neg hr] at h1
      simp at h1

theorem walk_append_of_next_some (l : List VRec) (v : Nat) (s : VRec) (x : VRec) :
    (walkIndex l v).2 = some s → walkIndex (l ++ [x]) v = walkIndex l v := by
  unfold walkIndex
  induction l with
  | nil => intro h; simp [walkGo] at h
  | cons r rest ih =>
    intro h
    rw [List.cons_append, walkGo, walkGo]
    by_cases hr : r.version ≤ v
    · rw [if_pos hr, if_pos hr]
      rw [walkGo, if_pos hr, walkGo_snd] at h
      have hroot := ih h
      refine Prod.ext ?_ ?_
      · rw [walkGo_fst v (rest ++ [x]) (some r), walkGo_fst v rest (some r), hroot]
      · rw [walkGo_snd v (rest ++ [x]) (some r), walkGo_snd v rest (some r), hroot]
    · rw [if_neg hr, if_neg hr]

theorem walk_append_of_all_le (l : List VRec) (v : Nat) (x : VRec) :
    (∀ r ∈ l, r.version ≤ v) → v < x.version →
    walkIndex (l ++ [x]) v = (l.getLast?, some x) := by
  unfold walkIndex
  induction l with
  | nil => intro _ hx; simp [walkGo, Nat.not_le_of_lt hx]
  | cons r rest ih =>
    intro h hx
    rw [List.cons_append, walkGo, if_pos (h r (List.mem_cons_self _ _))]
    have hih := ih (fun y hy => h y (List.mem_cons_of_mem _ hy)) hx
    refine Prod.ext ?_ ?_
    · rw [walkGo_fst]
      have hfst : (walkGo v (rest ++ [x]) none).1 = rest.getLast? :=
        congrArg Prod.fst hih
      rw [hfst]
      rcases rest with _ | ⟨a, t⟩
      · simp
      · rw [List.getLast?_cons_cons]
        rcases hg : (a :: t).getLast? with _ | g
        · exact absurd (List.getLast?_eq_none_iff.mp hg) (by simp)
        · rfl
    · rw [walkGo_snd]
      have hsnd : (walkGo v (rest ++ [x]) none).2 = some x := congrArg Prod.snd hih
      exact hsnd

/-! ### find?, fold and cleanup helper lemmas -/

theorem find?_append_of_none_right {A : Type} (p : A → Bool) (l1 l2 : List A)
    (h : l2.find? p = none) : (l1 ++ l2).find? p = l1.find? p := by
  induction l1 with
  | nil => simpa using h
  | cons a rest ih =>
    by_cases ha : p a
    · rw [List.cons_append, List.find?_cons_of_pos _ ha, List.find?_cons_of_pos _ ha]
    · rw [List.cons_append, List.find?_cons_of_neg _ (by simpa using ha),
        List.find?_cons_of_neg _ (by simpa using ha), ih]

theorem find?_filter_of_imp {A : Type} (p q : A → Bool) (l : List A)
    (h : ∀ e, p e = true → q e = true) :
    (l.filter q).find? p = l.find? p := by
  induction l with
  | nil => rfl
  | cons a rest ih =>
    by_cases hq : q a
    · rw [List.filter_cons_of_pos hq]
      by_cases hp : p a
      · rw [List.find?_cons_of_pos _ hp, List.find?_cons_of_pos _ hp]
      · rw [List.find?_cons_of_neg _ (by simpa using hp),
          List.find?_cons_of_neg _ (by simpa using hp), ih]
    · rw [List.filter_cons_of_neg (by simpa using hq)]
      have hp : ¬ p a = true := fun hpa => hq (h a hpa)
      rw [List.find?_cons_of_neg _ (by simpa using hp), ih]

theorem minFold_le_init (l : List ActiveTx) :
    ∀ m : Nat, l.foldl
      (fun m tx => if !tx.committed && tx.snapshotVersion < m then tx.snapshotVersion else m)
      m ≤ m := by
  induction l with
  | nil => intro m; exact Nat.le_refl m
  | cons a rest ih =>
    intro m
    rw [List.foldl_cons]
    by_cases hc : (!a.committed && a.snapshotVersion < m) = true
    · rw [if_pos hc]
      simp only [Bool.and_eq_true, decide_eq_true_eq] at hc
      exact Nat.le_trans (ih a.snapshotVersion) (Nat.le_of_lt hc.2)
    · rw [if_neg hc]
      exact ih m

theorem minFold_le_mem (l : List ActiveTx) (a : ActiveTx)
    (ha : a ∈ l) (hc : a.committed = false) :
    ∀ m : Nat, l.foldl
      (fun m tx => if !tx.committed && tx.snapshotVersion < m then tx.snapshotVersion else m)
      m ≤ a.snapshotVersion := by
  induction l with
  | nil => simp at ha
  | cons b rest ih =>
    intro m
    rw [List.foldl_cons]
    rcases List.mem_cons.mp ha with rfl | ha'
    · by_cases hlt : (!a.committed && a.snapshotVersion < m) = true
      · rw [if_pos hlt]
        exact minFold_le_init rest a.snapshotVersion
      · rw [if_neg hlt]
        simp only [hc, Bool.not_false, Bool.true_and, decide_eq_true_eq] at hlt
        exact Nat.le_trans (minFold_le_init rest m) (Nat.le_of_not_lt hlt)
    · exact ih ha' _

theorem le_minFold (l : List ActiveTx) (x : Nat)
    (h2 : ∀ a ∈ l, a.committed = false → x ≤ a.snapshotVersion) :
    ∀ m : Nat, x ≤ m → x ≤ l.foldl
      (fun m tx => if !tx.committed && tx.snapshotVersion < m then tx.snapshotVersion else m)
      m := by
  induction l with
  | nil => intro m hm; exact hm
  | cons a rest ih =>
    intro m hm
    rw [List.foldl_cons]
    have ih' := ih (fun b hb => h2 b (List.mem_cons_of_mem _ hb))
    by_cases hlt : (!a.committed && a.snapshotVersion < m) = true
    · rw [if_pos hlt]
      simp only [Bool.and_eq_true, Bool.not_eq_true', decide_eq_true_eq] at hlt
      exact ih' _ (h2 a (List.mem_cons_self _ _) hlt.1)
    · rw [if_neg hlt]
      exact ih' _ hm

theorem minActive_le_version (R : RootState K V) : minActiveVersion R ≤ R.version :=
  minFold_le_init R.activeTransactions R.version

theorem minActive_le_of_mem (R : RootState K V) (a : ActiveTx)
    (ha : a ∈ R.activeTransactions) (hc : a.committed = false) :
    minActiveVersion R ≤ a.snapshotVersion :=
  minFold_le_mem R.activeTransactions a ha hc R.version

theorem le_minActive (R : RootState K V) (x : Nat) (h1 : x ≤ R.version)
    (h2 : ∀ a ∈ R.activeTransactions, a.committed = false → x ≤ a.snapshotVersion) :
    x ≤ minActiveVersion R :=
  le_minFold R.activeTransactions x h2 R.version h1

/-! ### Key-set preservation and cleanup characterisation -/

theorem aset_keys (k : K) (v : V) (l : List (K × V)) :
    (aset k v l).map Prod.fst =
      if k ∈ l.map Prod.fst then l.map Prod.fst else l.map Prod.fst ++ [k] := by
  induction l with
  | nil => simp [aset]
  | cons p rest ih =>
    by_cases hp : p.1 = k
    · rw [aset, if_pos hp]
      simp [hp]
    · rw [aset, if_neg hp]
      by_cases hm : k ∈ rest.map Prod.fst
      · simp only [List.map_cons, ih, if_pos hm]
        rw [if_pos (List.mem_cons_of_mem _ hm)]
      · simp only [List.map_cons, ih, if_neg hm]
        rw [if_neg (by
          intro hk
          rcases List.mem_cons.mp hk with h1 | h1
          · exact hp h1.symm
          · exact hm h1)]
        rfl

theorem aset_keys_nodup {k : K} {v : V} {l : List (K × V)}
    (h : (l.map Prod.fst).Nodup) : ((aset k v l).map Prod.fst).Nodup := by
  rw [aset_keys]
  by_cases hm : k ∈ l.map Prod.fst
  · rw [if_pos hm]; exact h
  · rw [if_neg hm]
    simp [List.nodup_append, h, hm]

theorem diskWrite_ud_keys_nodup {R : RootState K V}
    (h : (R.deletedCache.map Prod.fst).Nodup) (k : K) (val : V) (w : Nat) :
    ((diskWrite R k val w).deletedCache.map Prod.fst).Nodup := by
  unfold diskWrite
  rcases hb : alookup k R.backend with _ | b
  · simpa using h
  · simpa using aset_keys_nodup h

theorem diskDelete_ud_keys_nodup {R : RootState K V}
    (h : (R.deletedCache.map Prod.fst).Nodup) (k : K) (w : Nat) :
    ((diskDelete R k w).deletedCache.map Prod.fst).Nodup := by
  unfold diskDelete
  rcases hb : alookup k R.backend with _ | b
  · simpa using h
  · simpa using aset_keys_nodup h

theorem applyWrites_ud_keys_nodup {R : RootState K V} {ws : List (K × V)} {w : Nat}
    (h : (R.deletedCache.map Prod.fst).Nodup) :
    ((applyWrites R ws w).deletedCache.map Prod.fst).Nodup := by
  induction ws generalizing R with
  | nil => exact h
  | cons kv rest ih =>
    rw [applyWrites, List.foldl_cons, ← applyWrites]
    exact ih (diskWrite_ud_keys_nodup h kv.1 kv.2 w)

theorem applyDeletes_ud_keys_nodup {R : RootState K V} {ds : List K} {w : Nat}
    (h : (R.deletedCache.map Prod.fst).Nodup) :
    ((applyDeletes R ds w).deletedCache.map Prod.fst).Nodup := by
  induction ds generalizing R with
  | nil => exact h
  | cons d rest ih =>
    rw [applyDeletes, List.foldl_cons, ← applyDeletes]
    exact ih (diskDelete_ud_keys_nodup h d w)

theorem alookup_clean_aux (m : Nat) (dc : List (K × List (UEntry V)))
    (hnd : (dc.map Prod.fst).Nodup) (k : K) :
    (alookup k ((dc.map
        (fun p => (p.1, p.2.filter (fun e => decide (m < e.deletedAtVersion))))).filter
      (fun p => !p.2.isEmpty))).getD [] =
    ((alookup k dc).getD []).filter (fun e => decide (m < e.deletedAtVersion)) := by
  induction dc with
  | nil => simp [alookup]
  | cons p rest ih =>
    simp only [List.map_cons, List.nodup_cons] at hnd
    by_cases hp : p.1 = k
    · rw [List.map_cons, alookup, if_pos hp]
      by_cases he : (p.2.filter (fun e => decide (m < e.deletedAtVersion))).isEmpty = true
      · rw [List.filter_cons_of_neg (by simpa using he)]
        have hnone : alookup k ((rest.map
            (fun p => (p.1, p.2.filter (fun e => decide (m < e.deletedAtVersion))))).filter
            (fun p => !p.2.isEmpty)) = none := by
          rw [alookup_eq_none_iff]
          intro q hq hqk
          rcases List.mem_filter.mp hq with ⟨hq', _⟩
          rcases List.mem_map.mp hq' with ⟨p', hp', hfq⟩
          have hq1 : q.1 = p'.1 := by rw [← hfq]
          exact hnd.1 (by
            rw [hp, ← hqk, hq1]
            exact List.mem_map_of_mem Prod.fst hp')
        rw [hnone]
        rw [List.isEmpty_iff] at he
        simp only [Option.getD_none, Option.getD_some]
        exact he.symm
      · rw [List.filter_cons_of_pos (by simpa using he)]
        rw [alookup, if_pos hp]
        rfl
    · rw [List.map_cons, alookup, if_neg hp]
      by_cases he : (p.2.filter (fun e => decide (m < e.deletedAtVersion))).isEmpty = true
      · rw [List.filter_cons_of_neg (by simpa using he)]
        exact ih hnd.2
      · rw [List.filter_cons_of_pos (by simpa using he)]
        rw [alookup, if_neg hp]
        exact ih hnd.2

theorem udLookup_cleanup (R : RootState K V)
    (hnd : (R.deletedCache.map Prod.fst).Nodup) (k : K) :
    udLookup (cleanupDeletedCache R) k =
      (udLookup R k).filter
        (fun e => decide (minActiveVersion R < e.deletedAtVersion)) := by
  unfold cleanupDeletedCache
  by_cases he : R.deletedCache.isEmpty = true
  · rw [if_pos he]
    rw [List.isEmpty_iff] at he
    simp [udLookup, he, alookup]
  · rw [if_neg he]
    exact alookup_clean_aux (minActiveVersion R) R.deletedCache hnd k

theorem diskRead_eq_of_lookups (R' R : RootState K V) (k : K) (v : Nat)
    (h1 : alookup k R'.versionIndex = alookup k R.versionIndex)
    (h2 : udLookup R' k = udLookup R k)
    (h3 : alookup k R'.backend = alookup k R.backend) :
    diskRead R' k v = diskRead R k v := by
  unfold diskRead
  rw [h1, h2, h3]

theorem diskRead_cleanup (R : RootState K V) (k : K) (v : Nat)
    (hnd : (R.deletedCache.map Prod.fst).Nodup) (hm : minActiveVersion R ≤ v) :
    diskRead (cleanupDeletedCache R) k v = diskRead R k v := by
  have hidx := cleanup_idx R
  have hb := cleanup_backend R
  have hud := udLookup_cleanup R hnd k
  unfold diskRead
  rw [hidx, hb, hud]
  rcases hL : alookup k R.versionIndex with _ | l
  · rfl
  · rcases hw : walkIndex l v with ⟨tgt, nxt⟩
    rcases tgt with _ | t
    · simp [hw]
    · rcases nxt with _ | n
      · simp [hw]
      · by_cases htp : t.present = true
        · simp only [hw, if_pos htp]
          have hnv : v < n.version :=
            (walk_next_some (show (walkIndex l v).2 = some n by rw [hw])).2
          rw [find?_filter_of_imp _ _ _ (fun e hpe => by
            simp only [decide_eq_true_eq] at hpe ⊢
            rw [hpe]
            exact Nat.lt_of_le_of_lt hm hnv)]
        · simp [hw, htp]

theorem find?_append_of_none_left {A : Type} (p : A → Bool) (l1 l2 : List A)
    (h : l1.find? p = none) : (l1 ++ l2).find? p = l2.find? p := by
  induction l1 with
  | nil => rfl
  | cons a rest ih =>
    rw [List.find?_eq_none] at h
    rw [List.cons_append,
      List.find?_cons_of_neg _ (by simpa using h a (List.mem_cons_self _ _))]
    exact ih (List.find?_eq_none.mpr (fun x hx => h x (List.mem_cons_of_mem _ hx)))

/-! ### Shape lemmas for the snapshot reader -/

theorem diskRead_no_history (R : RootState K V) (k : K) (v : Nat)
    (h : alookup k R.versionIndex = none) :
    diskRead R k v = alookup k R.backend := by
  unfold diskRead
  rw [h]

theorem diskRead_target_absent {R : RootState K V} {k : K} {v : Nat} {l : List VRec}
    (h : alookup k R.versionIndex = some l) (ht : (walkIndex l v).1 = none) :
    diskRead R k v = none := by
  unfold diskRead
  rw [h]
  rcases hw : walkIndex l v with ⟨tgt, nxt⟩
  have htgt : tgt = none := by rw [hw] at ht; exact ht
  subst htgt
  simp [hw]

theorem diskRead_target_tombstone {R : RootState K V} {k : K} {v : Nat} {l : List VRec}
    {t : VRec} (h : alookup k R.versionIndex = some l)
    (ht : (walkIndex l v).1 = some t) (hp : t.present = false) :
    diskRead R k v = none := by
  unfold diskRead
  rw [h]
  rcases hw : walkIndex l v with ⟨tgt, nxt⟩
  have htgt : tgt = some t := by rw [hw] at ht; exact ht
  subst htgt
  simp [hw, hp]

theorem diskRead_live {R : RootState K V} {k : K} {v : Nat} {l : List VRec}
    {t : VRec} (h : alookup k R.versionIndex = some l)
    (ht : (walkIndex l v).1 = some t) (hp : t.present = true)
    (hn : (walkIndex l v).2 = none) :
    diskRead R k v = alookup k R.backend := by
  unfold diskRead
  rw [h]
  rcases hw : walkIndex l v with ⟨tgt, nxt⟩
  have htgt : tgt = some t := by rw [hw] at ht; exact ht
  have hnxt : nxt = none := by rw [hw] at hn; exact hn
  subst htgt
  subst hnxt
  simp [hw, hp]

theorem diskRead_undo {R : RootState K V} {k : K} {v : Nat} {l : List VRec}
    {t n : VRec} (h : alookup k R.versionIndex = some l)
    (ht : (walkIndex l v).1 = some t) (hp : t.present = true)
    (hn : (walkIndex l v).2 = some n) :
    diskRead R k v =
      match (udLookup R k).find? (fun c => c.deletedAtVersion = n.version) with
      | some m => some m.value
      | none => none := by
  unfold diskRead
  rw [h]
  rcases hw : walkIndex l v with ⟨tgt, nxt⟩
  have htgt : tgt = some t := by rw [hw] at ht; exact ht
  have hnxt : nxt = some n := by rw [hw] at hn; exact hn
  subst htgt
  subst hnxt
  simp [hw, hp]

/-- Core preservation step: appending one version record at a fresh version
`w` (with the matching undo push) leaves every read at a snapshot `v < w`
unchanged, provided the key was managed or absent from the backend. -/
theorem diskRead_append_step (R' R : RootState K V) (k : K) (v w : Nat) (c : Bool)
    (hv : v < w)
    (hidx' : alookup k R'.versionIndex =
      some ((alookup k R.versionIndex).getD [] ++ [VRec.mk w c]))
    (hud' : udLookup R' k = udLookup R k ++
      (match alookup k R.backend with
        | some b => [UEntry.mk b w]
        | none => []))
    (hund : ∀ e ∈ udLookup R k, e.deletedAtVersion < w)
    (hidxle : ∀ r ∈ (alookup k R.versionIndex).getD [], r.version < w)
    (hman : alookup k R.versionIndex ≠ none ∨ alookup k R.backend = none) :
    diskRead R' k v = diskRead R k v := by
  have hudnone : (udLookup R k).find? (fun e => e.deletedAtVersion = w) = none := by
    rw [List.find?_eq_none]
    intro e he
    simpa using Nat.ne_of_lt (hund e he)
  rcases hL : alookup k R.versionIndex with _ | l
  · have hb : alookup k R.backend = none := by
      rcases hman with hm | hb
      · exact absurd hL hm
      · exact hb
    rw [hL] at hidx'
    simp only [Option.getD_none, List.nil_append] at hidx'
    have hw : walkIndex [VRec.mk w c] v = (none, some (VRec.mk w c)) := by
      unfold walkIndex walkGo
      rw [if_neg (by simpa using Nat.not_le_of_lt hv)]
    rw [diskRead_target_absent hidx' (by rw [hw]),
      diskRead_no_history R k v hL, hb]
  · rw [hL] at hidx' hidxle
    simp only [Option.getD_some] at hidx' hidxle
    rcases hnext : (walkIndex l v).2 with _ | s
    · have hall : ∀ r ∈ l, r.version ≤ v := (walk_next_none_iff l v).mp hnext
      have happ := walk_append_of_all_le l v (VRec.mk w c) hall hv
      have hfst := walk_fst_of_all_le l v hall
      rcases hg : l.getLast? with _ | t
      · have hl0 : l = [] := List.getLast?_eq_none_iff.mp hg
        subst hl0
        rw [diskRead_target_absent hidx' (by rw [happ, hg]),
          diskRead_target_absent hL (by rw [hfst, hg])]
      · by_cases htp : t.present = true
        · rw [diskRead_undo hidx' (by rw [happ, hg]) htp
            (show (walkIndex (l ++ [VRec.mk w c]) v).2 = some (VRec.mk w c) by
              rw [happ]),
            diskRead_live hL (by rw [hfst, hg]) htp hnext]
          rw [hud']
          rcases hbk : alookup k R.backend with _ | b
          · simp only [List.append_nil]
            rw [hudnone]
          · rw [find?_append_of_none_left _ _ _ hudnone]
            simp
        · have hpf : t.present = false := by
            rcases hb : t.present
            · rfl
            · exact absurd hb htp
          rw [diskRead_target_tombstone hidx' (by rw [happ, hg]) hpf,
            diskRead_target_tombstone hL (by rw [hfst, hg]) hpf]
    · have happ := walk_append_of_next_some l v s (VRec.mk w c) hnext
      have hsl := walk_next_some hnext
      have hsw : s.version < w := hidxle s hsl.1
      rcases htg : (walkIndex l v).1 with _ | t
      · rw [diskRead_target_absent hidx' (by rw [happ, htg]),
          diskRead_target_absent hL htg]
      · by_cases htp : t.present = true
        · rw [diskRead_undo hidx' (by rw [happ, htg]) htp
            (show (walkIndex (l ++ [VRec.mk w c]) v).2 = some s by rw [happ, hnext]),
            diskRead_undo hL htg htp hnext]
          rw [hud']
          rcases hbk : alookup k R.backend with _ | b
          · simp
          · rw [find?_append_of_none_right _ _ _ (by
              rw [List.find?_eq_none]
              intro e he
              simp only [List.mem_singleton] at he
              subst he
              simpa using Nat.ne_of_gt hsw)]
        · have hpf : t.present = false := by
            rcases hb : t.present
            · rfl
            · exact absurd hb htp
          rw [diskRead_target_tombstone hidx' (by rw [happ, htg]) hpf,
            diskRead_target_tombstone hL htg hpf]

/-! ### Preservation of reads across a Root merge (C1) -/

theorem exists_first_split {ws : List (K × V)} {k : K} (h : k ∈ ws.map Prod.fst) :
    ∃ l1 val l2, ws = l1 ++ (k, val) :: l2 ∧ k ∉ l1.map Prod.fst := by
  induction ws with
  | nil => simp at h
  | cons p rest ih =>
    rcases p with ⟨pk, pv⟩
    by_cases hp : pk = k
    · subst hp
      exact ⟨[], pv, rest, by simp, by simp⟩
    · have h' : k ∈ rest.map Prod.fst := by
        simp only [List.map_cons, List.mem_cons] at h
        rcases h with h1 | h1
        · exact absurd h1.symm hp
        · exact h1
      rcases ih h' with ⟨l1, val, l2, heq, hnm⟩
      refine ⟨(pk, pv) :: l1, val, l2, by rw [heq, List.cons_append], ?_⟩
      simp only [List.map_cons, List.mem_cons, not_or]
      exact ⟨fun hk => hp hk.symm, hnm⟩

theorem applyWrites_split (R : RootState K V) (l1 l2 : List (K × V)) (k : K) (val : V)
    (w : Nat) :
    applyWrites R (l1 ++ (k, val) :: l2) w =
      applyWrites (diskWrite (applyWrites R l1 w) k val w) l2 w := by
  unfold applyWrites
  rw [List.foldl_append, List.foldl_cons]

theorem applyDeletes_split (R : RootState K V) (l1 l2 : List K) (k : K) (w : Nat) :
    applyDeletes R (l1 ++ k :: l2) w =
      applyDeletes (diskDelete (applyDeletes R l1 w) k w) l2 w := by
  unfold applyDeletes
  rw [List.foldl_append, List.foldl_cons]

theorem rootMerge_ok_read_preserved {R R' : RootState K V} {child : TxBuf K V}
    {k : K} {v : Nat}
    (hok : rootMerge R child = .ok R')
    (hnd : (child.writeBuffer.map Prod.fst ++ child.deleteBuffer).Nodup)
    (hndU : (R.deletedCache.map Prod.fst).Nodup)
    (hv : v ≤ R.version)
    (hreg : ∃ a ∈ R.activeTransactions,
      a.committed = false ∧ a.snapshotVersion ≤ v ∧ a.tid ≠ child.tid)
    (hidxle : ∀ r ∈ (alookup k R.versionIndex).getD [], r.version ≤ R.version)
    (hund : ∀ e ∈ udLookup R k, e.deletedAtVersion ≤ R.version)
    (hman : alookup k R.versionIndex ≠ none ∨ alookup k R.backend = none) :
    diskRead R' k v = diskRead R k v := by
  unfold rootMerge at hok
  rcases hf : (modifiedKeys child).find? (keyConflicts R child.snapshotVersion) with _ | kk
  · rw [hf] at hok
    simp only [Except.ok.injEq] at hok
    have hvw : v < R.version + 1 := Nat.lt_succ_of_le hv
    have hwbnd : (child.writeBuffer.map Prod.fst).Nodup :=
      hnd.of_append_left
    have hdbnd : child.deleteBuffer.Nodup := hnd.of_append_right
    have hdisj : ∀ x, x ∈ child.writeBuffer.map Prod.fst → x ∉ child.deleteBuffer :=
      fun x hx => List.disjoint_of_nodup_append hnd hx
    set w := R.version + 1 with hwdef
    set R1 := applyWrites R child.writeBuffer w with hR1
    set R2 := applyDeletes R1 child.deleteBuffer w with hR2
    have hstepA : diskRead R2 k v = diskRead R k v := by
      by_cases hkw : k ∈ child.writeBuffer.map Prod.fst
      · have hkd : k ∉ child.deleteBuffer := hdisj k hkw
        rcases exists_first_split hkw with ⟨s1, val, s2, heq, hns1⟩
        have hns2 : k ∉ s2.map Prod.fst := by
          have := hwbnd
          rw [heq] at this
          simp only [List.map_append, List.map_cons] at this
          have h2 := this.of_append_right
          exact (List.nodup_cons.mp h2).1
        have h2eq : diskRead R2 k v = diskRead R1 k v := by
          refine diskRead_eq_of_lookups _ _ _ _ ?_ ?_ ?_
          · exact applyDeletes_idx_not_mem hkd _ _
          · exact applyDeletes_ud_not_mem hkd _ _
          · exact applyDeletes_backend_not_mem hkd _ _
        rw [h2eq, hR1, heq, applyWrites_split]
        set Ra := applyWrites R s1 w with hRa
        have h1eq : diskRead (applyWrites (diskWrite Ra k val w) s2 w) k v =
            diskRead (diskWrite Ra k val w) k v := by
          refine diskRead_eq_of_lookups _ _ _ _ ?_ ?_ ?_
          · exact applyWrites_idx_not_mem hns2 _ _
          · exact applyWrites_ud_not_mem hns2 _ _
          · exact applyWrites_backend_not_mem hns2 _ _
        rw [h1eq]
        have haidx : alookup k Ra.versionIndex = alookup k R.versionIndex :=
          applyWrites_idx_not_mem hns1 _ _
        have haud : udLookup Ra k = udLookup R k := applyWrites_ud_not_mem hns1 _ _
        have habk : alookup k Ra.backend = alookup k R.backend :=
          applyWrites_backend_not_mem hns1 _ _
        have hstep : diskRead (diskWrite Ra k val w) k v = diskRead Ra k v := by
          refine diskRead_append_step _ _ _ _ _ true hvw ?_ ?_ ?_ ?_ ?_
          · exact diskWrite_idx_self Ra k val w
          · exact diskWrite_ud_self Ra k val w
          · rw [haud]
            intro e he
            exact Nat.lt_succ_of_le (hund e he)
          · rw [haidx]
            intro r hr
            exact Nat.lt_succ_of_le (hidxle r hr)
          · rw [haidx, habk]
            exact hman
        rw [hstep]
        refine diskRead_eq_of_lookups _ _ _ _ haidx haud habk
      · by_cases hkd : k ∈ child.deleteBuffer
        · rcases List.mem_iff_append.mp hkd with ⟨s1, s2, heq⟩
          have hnd12 : k ∉ s1 ∧ k ∉ s2 := by
            have := hdbnd
            rw [heq] at this
            constructor
            · intro hk1
              exact (List.disjoint_of_nodup_append this) hk1 (List.mem_cons_self _ _)
            · exact (List.nodup_cons.mp this.of_append_right).1
          have h1idx : alookup k R1.versionIndex = alookup k R.versionIndex :=
            applyWrites_idx_not_mem hkw _ _
          have h1ud : udLookup R1 k = udLookup R k := applyWrites_ud_not_mem hkw _ _
          have h1bk : alookup k R1.backend = alookup k R.backend :=
            applyWrites_backend_not_mem hkw _ _
          rw [hR2, heq, applyDeletes_split]
          set Rb := applyDeletes R1 s1 w with hRb
          have h2eq : diskRead (applyDeletes (diskDelete Rb k w) s2 w) k v =
              diskRead (diskDelete Rb k w) k v := by
            refine diskRead_eq_of_lookups _ _ _ _ ?_ ?_ ?_
            · exact applyDeletes_idx_not_mem hnd12.2 _ _
            · exact applyDeletes_ud_not_mem hnd12.2 _ _
            · exact applyDeletes_backend_not_mem hnd12.2 _ _
          rw [h2eq]
          have hbidx : alookup k Rb.versionIndex = alookup k R.versionIndex := by
            rw [applyDeletes_idx_not_mem hnd12.1 _ _, h1idx]
          have hbud : udLookup Rb k = udLookup R k := by
            rw [applyDeletes_ud_not_mem hnd12.1 _ _, h1ud]
          have hbbk : alookup k Rb.backend = alookup k R.backend := by
            rw [applyDeletes_backend_not_mem hnd12.1 _ _, h1bk]
          have hstep : diskRead (diskDelete Rb k w) k v = diskRead Rb k v := by
            refine diskRead_append_step _ _ _ _ _ false hvw ?_ ?_ ?_ ?_ ?_
            · exact diskDelete_idx_self Rb k w
            · exact diskDelete_ud_self Rb k w
            · rw [hbud]
              intro e he
              exact Nat.lt_succ_of_le (hund e he)
            · rw [hbidx]
              intro r hr
              exact Nat.lt_succ_of_le (hidxle r hr)
            · rw [hbidx, hbbk]
              exact hman
          rw [hstep]
          refine diskRead_eq_of_lookups _ _ _ _ hbidx hbud hbbk
        · refine diskRead_eq_of_lookups _ _ _ _ ?_ ?_ ?_
          · rw [applyDeletes_idx_not_mem hkd _ _, applyWrites_idx_not_mem hkw _ _]
          · rw [applyDeletes_ud_not_mem hkd _ _, applyWrites_ud_not_mem hkw _ _]
          · rw [applyDeletes_backend_not_mem hkd _ _, applyWrites_backend_not_mem hkw _ _]
    subst hok
    set R3 : RootState K V := { R2 with version := w, activeTransactions := R2.activeTransactions.filter (fun t => t.tid ≠ child.tid) } with hR3
    have hstepB : diskRead R3 k v = diskRead R2 k v := by
      refine diskRead_eq_of_lookups _ _ _ _ rfl rfl rfl
    have hndU3 : (R3.deletedCache.map Prod.fst).Nodup := by
      have h2 : (R2.deletedCache.map Prod.fst).Nodup :=
        applyDeletes_ud_keys_nodup (applyWrites_ud_keys_nodup hndU)
      exact h2
    have hminA : minActiveVersion R3 ≤ v := by
      rcases hreg with ⟨a, ha, hac, hasv, hat⟩
      have hmem : a ∈ R3.activeTransactions := by
        have hmf : a ∈ R2.activeTransactions.filter (fun t => t.tid ≠ child.tid) := by
          rw [List.mem_filter]
          refine ⟨?_, by simpa using hat⟩
          rw [applyDeletes_active, applyWrites_active]
          exact ha
        exact hmf
      exact Nat.le_trans (minActive_le_of_mem R3 a hmem hac) hasv
    have hstepC : diskRead (cleanupDeletedCache R3) k v = diskRead R3 k v :=
      diskRead_cleanup R3 k v hndU3 hminA
    rw [hstepC, hstepB, hstepA]
  · rw [hf] at hok
    simp at hok

/-- C1 counterexample.  Key 7 pre-exists on the backend (value 99) and has
no Version Index history.  The reader `s1T` (snapshot 0) reads 99; after
another transaction's successful Root commit overwrites key 7, the Undo
Cache pre-image `(99, superseded at 1)` is pushed at apply time, yet the
reader now reads absent — so `T.read(k)` is not stable for unmanaged keys. -/
theorem snapshot_stability_counterexample :
    readOp s1T s1mk2.2 7 = .ok (some 99) ∧
    s1commit.1.success = true ∧
    udLookup s1R1 7 = [⟨99, 1⟩] ∧
    readOp s1T s1R1 7 = .ok none := by
  decide

/-- C1 amended.  Snapshot stability holds for every key that is either
covered by the Version Index or absent from the backend: if a transaction
`T` (registered, open, snapshot at or below the global version) performs no
local write or delete of `k`, its `read(k)` is unchanged by any other
transaction's successful Root merge.  (For a key present on the backend but
never managed by the engine, the first commit that touches it makes `T`
read absent instead — see the counterexample.) -/
theorem snapshot_stability_amended (T child : TxBuf K V) (R R' : RootState K V) (k : K)
    (hok : rootMerge R child = .ok R')
    (hT : T.committed = false)
    (hreg : ActiveTx.mk T.tid T.snapshotVersion false ∈ R.activeTransactions)
    (htid : T.tid ≠ child.tid)
    (hv : T.snapshotVersion ≤ R.version)
    (hnd : (child.writeBuffer.map Prod.fst ++ child.deleteBuffer).Nodup)
    (hndU : (R.deletedCache.map Prod.fst).Nodup)
    (hidxle : ∀ r ∈ (alookup k R.versionIndex).getD [], r.version ≤ R.version)
    (hund : ∀ e ∈ udLookup R k, e.deletedAtVersion ≤ R.version)
    (hman : alookup k R.versionIndex ≠ none ∨ alookup k R.backend = none) :
    readOp T R' k = readOp T R k := by
  have hdr : diskRead R' k T.snapshotVersion = diskRead R k T.snapshotVersion :=
    rootMerge_ok_read_preserved hok hnd hndU hv
      ⟨ActiveTx.mk T.tid T.snapshotVersion false, hreg, rfl, Nat.le_refl _, htid⟩
      hidxle hund hman
  unfold readOp txRead
  rw [hT]
  rcases alookup k T.writeBuffer with _ | wv
  · by_cases hdb : k ∈ T.deleteBuffer <;> simp [hdb, hdr]
  · rfl

/-- C1 witness: the amended theorem applied to the live reader `s2reader2`
(snapshot 1) across the write-then-delete commit of scenario 2; its read of
key 5 stays `some 10`. -/
theorem snapshot_stability_amended_witness :
    readOp s2reader2 s2R2 5 = readOp s2reader2 s2mkD.2 5 ∧
    readOp s2reader2 s2mkD.2 5 = .ok (some 10) ∧
    readOp s2reader2 s2R2 5 = .ok (some 10) := by
  have h := snapshot_stability_amended s2reader2 s2wd s2mkD.2 s2R2 5
    (by decide) (by decide) (by decide) (by decide) (by decide) (by decide)
    (by decide) (by decide) (by decide) (by decide)
  exact ⟨h, by decide, by rw [h]; decide⟩

/-! ### Structural lemmas for the Root-state invariant (C3) -/

theorem alookup_of_mem_nodup {l : List (K × V)} {k : K} {v : V}
    (hnd : (l.map Prod.fst).Nodup) (h : (k, v) ∈ l) : alookup k l = some v := by
  induction l with
  | nil => simp at h
  | cons p rest ih =>
    simp only [List.map_cons, List.nodup_cons] at hnd
    rcases List.mem_cons.mp h with rfl | h'
    · rw [alookup, if_pos rfl]
    · rw [alookup]
      by_cases hp : p.1 = k
      · exfalso
        apply hnd.1
        rw [hp]
        exact List.mem_map_of_mem Prod.fst h'
      · rw [if_neg hp]
        exact ih hnd.2 h'

theorem aremove_keys_sublist (k : K) (l : List (K × V)) :
    ((aremove k l).map Prod.fst).Sublist (l.map Prod.fst) := by
  induction l with
  | nil => simp [aremove]
  | cons p rest ih =>
    by_cases hp : p.1 = k
    · rw [aremove, if_pos hp]
      simp only [List.map_cons]
      exact List.sublist_cons_self _ _
    · rw [aremove, if_neg hp]
      simpa using List.Sublist.cons₂ p.1 ih

theorem aremove_keys_nodup {k : K} {l : List (K × V)}
    (h : (l.map Prod.fst).Nodup) : ((aremove k l).map Prod.fst).Nodup :=
  (aremove_keys_sublist k l).nodup h

theorem diskWrite_backend_keys_nodup {R : RootState K V}
    (h : (R.backend.map Prod.fst).Nodup) (k : K) (val : V) (w : Nat) :
    ((diskWrite R k val w).backend.map Prod.fst).Nodup := by
  unfold diskWrite
  rcases hb : alookup k R.backend with _ | b <;> simpa using aset_keys_nodup h

theorem diskDelete_backend_keys_nodup {R : RootState K V}
    (h : (R.backend.map Prod.fst).Nodup) (k : K) (w : Nat) :
    ((diskDelete R k w).backend.map Prod.fst).Nodup := by
  unfold diskDelete
  rcases hb : alookup k R.backend with _ | b <;> simpa using aremove_keys_nodup h

theorem applyWrites_backend_keys_nodup {R : RootState K V} {ws : List (K × V)} {w : Nat}
    (h : (R.backend.map Prod.fst).Nodup) :
    ((applyWrites R ws w).backend.map Prod.fst).Nodup := by
  induction ws generalizing R with
  | nil => exact h
  | cons kv rest ih =>
    rw [applyWrites, List.foldl_cons, ← applyWrites]
    exact ih (diskWrite_backend_keys_nodup h kv.1 kv.2 w)

theorem applyDeletes_backend_keys_nodup {R : RootState K V} {ds : List K} {w : Nat}
    (h : (R.backend.map Prod.fst).Nodup) :
    ((applyDeletes R ds w).backend.map Prod.fst).Nodup := by
  induction ds generalizing R with
  | nil => exact h
  | cons d rest ih =>
    rw [applyDeletes, List.foldl_cons, ← applyDeletes]
    exact ih (diskDelete_backend_keys_nodup h d w)

theorem diskWrite_idx_keys_nodup {R : RootState K V}
    (h : (R.versionIndex.map Prod.fst).Nodup) (k : K) (val : V) (w : Nat) :
    ((diskWrite R k val w).versionIndex.map Prod.fst).Nodup := by
  unfold diskWrite
  rcases hb : alookup k R.backend with _ | b <;> simpa using aset_keys_nodup h

theorem diskDelete_idx_keys_nodup {R : RootState K V}
    (h : (R.versionIndex.map Prod.fst).Nodup) (k : K) (w : Nat) :
    ((diskDelete R k w).versionIndex.map Prod.fst).Nodup := by
  unfold diskDelete
  rcases hb : alookup k R.backend with _ | b <;> simpa using aset_keys_nodup h

theorem applyWrites_idx_keys_nodup {R : RootState K V} {ws : List (K × V)} {w : Nat}
    (h : (R.versionIndex.map Prod.fst).Nodup) :
    ((applyWrites R ws w).versionIndex.map Prod.fst).Nodup := by
  induction ws generalizing R with
  | nil => exact h
  | cons kv rest ih =>
    rw [applyWrites, List.foldl_cons, ← applyWrites]
    exact ih (diskWrite_idx_keys_nodup h kv.1 kv.2 w)

theorem applyDeletes_idx_keys_nodup {R : RootState K V} {ds : List K} {w : Nat}
    (h : (R.versionIndex.map Prod.fst).Nodup) :
    ((applyDeletes R ds w).versionIndex.map Prod.fst).Nodup := by
  induction ds generalizing R with
  | nil => exact h
  | cons d rest ih =>
    rw [applyDeletes, List.foldl_cons, ← applyDeletes]
    exact ih (diskDelete_idx_keys_nodup h d w)

/-- Adjacent pairs of `l ++ [x]` are the adjacent pairs of `l` plus the
bridge from `l`'s last element to `x`. -/
theorem zip_tail_append_singleton {A : Type} {l : List A} {x : A} {pr : A × A}
    (h : pr ∈ (l ++ [x]).zip (l ++ [x]).tail) :
    pr ∈ l.zip l.tail ∨ (l.getLast? = some pr.1 ∧ pr.2 = x) := by
  induction l with
  | nil => simp [List.zip] at h
  | cons a t ih =>
    rcases t with _ | ⟨b, t'⟩
    · have hpr : pr = (a, x) := by simpa using h
      right
      rw [hpr]
      exact ⟨rfl, rfl⟩
    · rw [List.cons_append, List.cons_append, List.tail_cons, List.zip_cons_cons] at h
      rcases List.mem_cons.mp h with h1 | h1
      · left
        rw [List.tail_cons, List.zip_cons_cons, h1]
        exact List.mem_cons_self _ _
      · rcases ih (by rw [List.cons_append, List.tail_cons]; exact h1) with h2 | h2
        · left
          rw [List.tail_cons, List.zip_cons_cons]
          refine List.mem_cons_of_mem _ ?_
          simpa using h2
        · right
          refine ⟨?_, h2.2⟩
          rw [List.getLast?_cons_cons]
          exact h2.1

theorem minActive_cleanup (R : RootState K V) :
    minActiveVersion (cleanupDeletedCache R) = minActiveVersion R := by
  unfold minActiveVersion
  rw [cleanup_active, cleanup_version]

/-! ### Walk characterisation under a sorted history -/

theorem walk_fst_eq_takeWhile (l : List VRec) (v : Nat) :
    (walkIndex l v).1 = (l.takeWhile (fun r => decide (r.version ≤ v))).getLast? := by
  unfold walkIndex
  induction l with
  | nil => rfl
  | cons r rest ih =>
    rw [walkGo]
    by_cases hr : r.version ≤ v
    · rw [if_pos hr, walkGo_fst, List.takeWhile_cons_of_pos (by simpa using hr), ih]
      rcases hg : (rest.takeWhile (fun r => decide (r.version ≤ v))).getLast? with _ | g
      · rw [hg]
        have h0 : rest.takeWhile (fun r => decide (r.version ≤ v)) = [] :=
          List.getLast?_eq_none_iff.mp hg
        rw [h0]
        rfl
      · rw [hg]
        rcases hx : rest.takeWhile (fun r => decide (r.version ≤ v)) with _ | ⟨b, t⟩
        · rw [hx] at hg
          simp at hg
        · rw [hx] at hg
          rw [hx, List.getLast?_cons_cons, hg]
    · rw [if_neg hr, List.takeWhile_cons_of_neg (by simpa using hr)]
      rfl

theorem chain_lt_pairwise {l : List VRec}
    (h : List.Chain' (fun a b => a.version < b.version) l) :
    List.Pairwise (fun a b => a.version < b.version) l := by
  haveI : IsTrans VRec (fun a b => a.version < b.version) :=
    ⟨fun a b c hab hbc => Nat.lt_trans hab hbc⟩
  exact List.chain'_iff_pairwise.mp h

theorem filter_eq_takeWhile_sorted {l : List VRec} {v : Nat}
    (h : List.Pairwise (fun a b => a.version < b.version) l) :
    l.filter (fun r => decide (r.version ≤ v)) =
      l.takeWhile (fun r => decide (r.version ≤ v)) := by
  induction l with
  | nil => rfl
  | cons r rest ih =>
    rcases List.pairwise_cons.mp h with ⟨hr, hrest⟩
    by_cases hrv : r.version ≤ v
    · rw [List.filter_cons_of_pos (by simpa using hrv),
        List.takeWhile_cons_of_pos (by simpa using hrv), ih hrest]
    · rw [List.filter_cons_of_neg (by simpa using hrv),
        List.takeWhile_cons_of_neg (by simpa using hrv)]
      rw [List.filter_eq_nil_iff]
      intro x hx
      simp only [decide_eq_true_eq]
      exact Nat.not_le_of_lt (Nat.lt_trans (Nat.lt_of_not_le hrv) (hr x hx))

/-- On a strictly increasing history the walk's `target` is the most recent
record at or below the snapshot. -/
theorem walk_fst_sorted {l : List VRec} {v : Nat}
    (h : List.Chain' (fun a b => a.version < b.version) l) :
    (walkIndex l v).1 = (l.filter (fun r => decide (r.version ≤ v))).getLast? := by
  rw [walk_fst_eq_takeWhile, filter_eq_takeWhile_sorted (chain_lt_pairwise h)]

theorem mem_of_getLast {A : Type} : ∀ {l : List A} {a : A}, l.getLast? = some a → a ∈ l := by
  intro l
  induction l with
  | nil =>
    intro a h
    simp at h
  | cons x t ih =>
    intro a h
    rcases ht : t with _ | ⟨y, t'⟩
    · subst ht
      simp only [List.getLast?_singleton, Option.some.injEq] at h
      rw [← h]
      exact List.mem_cons_self _ _
    · subst ht
      rw [List.getLast?_cons_cons] at h
      exact List.mem_cons_of_mem _ (ih h)

/-! ### Per-key state after the merge apply phase -/

theorem exists_first_split_elem {ds : List K} {k : K} (h : k ∈ ds) :
    ∃ l1 l2, ds = l1 ++ k :: l2 ∧ k ∉ l1 := by
  induction ds with
  | nil => simp at h
  | cons d rest ih =>
    by_cases hd : d = k
    · subst hd
      exact ⟨[], rest, by simp, by simp⟩
    · rcases ih (by
        rcases List.mem_cons.mp h with h1 | h1
        · exact absurd h1.symm hd
        · exact h1) with ⟨l1, l2, heq, hnm⟩
      refine ⟨d :: l1, l2, by rw [heq, List.cons_append], ?_⟩
      simp only [List.mem_cons, not_or]
      exact ⟨fun hk => hd hk.symm, hnm⟩

/-- A key in the committing Write Buffer (with unique keys, not also
delete-buffered) ends the apply phase with a fresh `present` record, a live
backend value, and the pre-image pushed onto its undo list. -/
theorem merged_written {R : RootState K V} {wb : List (K × V)} {db : List K} {k : K}
    (w : Nat) (hk : k ∈ wb.map Prod.fst) (hnd : (wb.map Prod.fst).Nodup)
    (hkdb : k ∉ db) :
    alookup k (applyDeletes (applyWrites R wb w) db w).versionIndex =
      some ((alookup k R.versionIndex).getD [] ++ [VRec.mk w true]) ∧
    (alookup k (applyDeletes (applyWrites R wb w) db w).backend).isSome = true ∧
    udLookup (applyDeletes (applyWrites R wb w) db w) k =
      udLookup R k ++
        (match alookup k R.backend with
          | some b => [UEntry.mk b w]
          | none => []) := by
  rcases exists_first_split hk with ⟨l1, val, l2, heq, hl1⟩
  have hl2 : k ∉ l2.map Prod.fst := by
    rw [heq] at hnd
    simp only [List.map_append, List.map_cons] at hnd
    rcases List.nodup_append.mp hnd with ⟨_, hnd2, _⟩
    exact (List.nodup_cons.mp hnd2).1
  subst heq
  rw [applyWrites_split]
  refine ⟨?_, ?_, ?_⟩
  · rw [applyDeletes_idx_not_mem hkdb, applyWrites_idx_not_mem hl2,
      diskWrite_idx_self, applyWrites_idx_not_mem hl1]
  · rw [applyDeletes_backend_not_mem hkdb, applyWrites_backend_not_mem hl2,
      diskWrite_backend_self]
    rfl
  · rw [applyDeletes_ud_not_mem hkdb, applyWrites_ud_not_mem hl2,
      diskWrite_ud_self, applyWrites_ud_not_mem hl1, applyWrites_backend_not_mem hl1]

/-- A key in the committing Delete Buffer (with unique keys, not also
write-buffered) ends the apply phase with a fresh tombstone record, no
backend value, and the pre-image pushed onto its undo list. -/
theorem merged_deleted {R : RootState K V} {wb : List (K × V)} {db : List K} {k : K}
    (w : Nat) (hk : k ∈ db) (hnd : db.Nodup) (hkwb : k ∉ wb.map Prod.fst)
    (hbnd : (R.backend.map Prod.fst).Nodup) :
    alookup k (applyDeletes (applyWrites R wb w) db w).versionIndex =
      some ((alookup k R.versionIndex).getD [] ++ [VRec.mk w false]) ∧
    alookup k (applyDeletes (applyWrites R wb w) db w).backend = none ∧
    udLookup (applyDeletes (applyWrites R wb w) db w) k =
      udLookup R k ++
        (match alookup k R.backend with
          | some b => [UEntry.mk b w]
          | none => []) := by
  rcases exists_first_split_elem hk with ⟨l1, l2, heq, hl1⟩
  have hl2 : k ∉ l2 := by
    rw [heq] at hnd
    rcases List.nodup_append.mp hnd with ⟨_, hnd2, _⟩
    exact (List.nodup_cons.mp hnd2).1
  subst heq
  rw [applyDeletes_split]
  refine ⟨?_, ?_, ?_⟩
  · rw [applyDeletes_idx_not_mem hl2, diskDelete_idx_self,
      applyDeletes_idx_not_mem hl1, applyWrites_idx_not_mem hkwb]
  · rw [applyDeletes_backend_not_mem hl2,
      diskDelete_backend_self_of_nodup _ k w
        (applyDeletes_backend_keys_nodup (applyWrites_backend_keys_nodup hbnd))]
  · rw [applyDeletes_ud_not_mem hl2, diskDelete_ud_self,
      applyDeletes_ud_not_mem hl1, applyWrites_ud_not_mem hkwb,
      applyDeletes_backend_not_mem hl1, applyWrites_backend_not_mem hkwb]

/-! ### Invariant access through lookups -/

theorem UndoOk_udLookup {R : RootState K V} (h : UndoOk R) {k : K} :
    ∀ e ∈ udLookup R k, e.deletedAtVersion ≤ R.version := by
  intro e he
  unfold udLookup at he
  rcases hc : alookup k R.deletedCache with _ | l
  · rw [hc] at he
    simp at he
  · rw [hc] at he
    simp only [Option.getD_some] at he
    exact h.2 (k, l) (alookup_mem hc) e he

theorem IdxOk_of_lookup {R : RootState K V} (h : IdxOk R) {k : K} {l : List VRec}
    (hl : alookup k R.versionIndex = some l) :
    List.Chain' (fun a b => a.version < b.version) l ∧ l ≠ [] ∧
      ∀ r ∈ l, r.version ≤ R.version :=
  h.2 (k, l) (alookup_mem hl)

theorem SyncOk_of_lookup {R : RootState K V} (h : SyncOk R) {k : K} {l : List VRec}
    (hl : alookup k R.versionIndex = some l) {r : VRec} (hr : l.getLast? = some r) :
    r.present = true ↔ (alookup k R.backend).isSome = true :=
  h.2 (k, l) (alookup_mem hl) r hr

theorem CompleteOk_of_lookup {R : RootState K V} (h : CompleteOk R) {k : K}
    {l : List VRec} (hl : alookup k R.versionIndex = some l) {pr : VRec × VRec}
    (hpr : pr ∈ l.zip l.tail) (hp : pr.1.present = true)
    (hm : minActiveVersion R < pr.2.version) :
    ∃ e ∈ udLookup R k, e.deletedAtVersion = pr.2.version :=
  h (k, l) (alookup_mem hl) pr hpr hp hm

theorem cleanup_cache_mem {R : RootState K V} {p : K × List (UEntry V)}
    (hp : p ∈ (cleanupDeletedCache R).deletedCache) :
    ∃ q ∈ R.deletedCache, p.1 = q.1 ∧ ∀ e ∈ p.2, e ∈ q.2 := by
  unfold cleanupDeletedCache at hp
  by_cases he : R.deletedCache.isEmpty = true
  · rw [if_pos he] at hp
    exact ⟨p, hp, rfl, fun e heq => heq⟩
  · rw [if_neg he] at hp
    simp only at hp
    rcases List.mem_filter.mp hp with ⟨hp1, _⟩
    rcases List.mem_map.mp hp1 with ⟨q, hq, hfq⟩
    refine ⟨q, hq, ?_, ?_⟩
    · rw [← hfq]
    · intro e hep
      rw [← hfq] at hep
      exact List.mem_of_mem_filter hep

theorem cleanup_ud_keys_nodup {R : RootState K V}
    (h : (R.deletedCache.map Prod.fst).Nodup) :
    ((cleanupDeletedCache R).deletedCache.map Prod.fst).Nodup := by
  unfold cleanupDeletedCache
  by_cases he : R.deletedCache.isEmpty = true
  · rw [if_pos he]
    exact h
  · rw [if_neg he]
    refine ((List.filter_sublist _).map Prod.fst).nodup ?_
    rw [List.map_map]
    exact h

theorem minActive_le_update {R R' : RootState K V}
    (hver : R.version ≤ R'.version)
    (hact : ∀ a ∈ R'.activeTransactions, a ∈ R.activeTransactions) :
    minActiveVersion R ≤ minActiveVersion R' :=
  le_minActive R' (minActiveVersion R) (Nat.le_trans (minActive_le_version R) hver)
    (fun a ha hc => minActive_le_of_mem R a (hact a ha) hc)

/-! ### Preservation of the Root invariant by the merge protocol -/

/-- A successful Root merge of a child with unique, disjoint Write/Delete
Buffer keys (as the buffer operations maintain) preserves the Root-state
invariant. -/
theorem rootMerge_preserves_WF {R R' : RootState K V} {child : TxBuf K V}
    (hwf : RootWF R)
    (hwnd : (child.writeBuffer.map Prod.fst).Nodup)
    (hdnd : child.deleteBuffer.Nodup)
    (hdisj : ∀ k ∈ child.deleteBuffer, k ∉ child.writeBuffer.map Prod.fst)
    (hok : rootMerge R child = .ok R') :
    RootWF R' := by
  obtain ⟨⟨hIn, hIp⟩, ⟨hUn, hUp⟩, ⟨hBn, hSp⟩, hC⟩ := hwf
  unfold rootMerge at hok
  rcases hf : (modifiedKeys child).find? (keyConflicts R child.snapshotVersion)
      with _ | k0
  case some =>
    rw [hf] at hok
    simp at hok
  rw [hf] at hok
  simp only [Except.ok.injEq] at hok
  subst hok
  set w := R.version + 1 with hwdef
  set R2 := applyDeletes (applyWrites R child.writeBuffer w) child.deleteBuffer w
    with hR2def
  set R3 : RootState K V := { R2 with version := w, activeTransactions := R2.activeTransactions.filter (fun t => t.tid ≠ child.tid) } with hR3def
  have hv2 : R2.version = R.version := by
    rw [hR2def, applyDeletes_version, applyWrites_version]
  have ha2 : R2.activeTransactions = R.activeTransactions := by
    rw [hR2def, applyDeletes_active, applyWrites_active]
  have hidxnd2 : (R2.versionIndex.map Prod.fst).Nodup := by
    rw [hR2def]
    exact applyDeletes_idx_keys_nodup (applyWrites_idx_keys_nodup hIn)
  have hudnd2 : (R2.deletedCache.map Prod.fst).Nodup := by
    rw [hR2def]
    exact applyDeletes_ud_keys_nodup (applyWrites_ud_keys_nodup hUn)
  have hbnd2 : (R2.backend.map Prod.fst).Nodup := by
    rw [hR2def]
    exact applyDeletes_backend_keys_nodup (applyWrites_backend_keys_nodup hBn)
  have h3idx : R3.versionIndex = R2.versionIndex := rfl
  have h3b : R3.backend = R2.backend := rfl
  have h3ud : R3.deletedCache = R2.deletedCache := rfl
  have h3v : R3.version = w := rfl
  have h3a : R3.activeTransactions =
      R2.activeTransactions.filter (fun t => t.tid ≠ child.tid) := rfl
  have hmle : minActiveVersion R ≤ minActiveVersion R3 := by
    refine minActive_le_update ?_ ?_
    · rw [h3v, hwdef]
      exact Nat.le_succ R.version
    · intro a ha
      rw [h3a] at ha
      rw [← ha2]
      exact List.mem_of_mem_filter ha
  have hmc : minActiveVersion (cleanupDeletedCache R3) = minActiveVersion R3 :=
    minActive_cleanup R3
  have hcidx : (cleanupDeletedCache R3).versionIndex = R2.versionIndex := by
    rw [cleanup_idx, h3idx]
  have hcb : (cleanupDeletedCache R3).backend = R2.backend := by
    rw [cleanup_backend, h3b]
  have hcv : (cleanupDeletedCache R3).version = w := by
    rw [cleanup_version, h3v]
  have hcud : ∀ kk : K, udLookup (cleanupDeletedCache R3) kk =
      (udLookup R2 kk).filter
        (fun e => decide (minActiveVersion R3 < e.deletedAtVersion)) := by
    intro kk
    rw [udLookup_cleanup R3 (by rw [h3ud]; exact hudnd2) kk]
    unfold udLookup
    rw [h3ud]
  have hchar : ∀ kk : K,
      (∃ c, alookup kk R2.versionIndex =
          some ((alookup kk R.versionIndex).getD [] ++ [VRec.mk w c]) ∧
        (alookup kk R2.backend).isSome = c ∧
        udLookup R2 kk = udLookup R kk ++
          (match alookup kk R.backend with
            | some b => [UEntry.mk b w]
            | none => [])) ∨
      (alookup kk R2.versionIndex = alookup kk R.versionIndex ∧
        alookup kk R2.backend = alookup kk R.backend ∧
        udLookup R2 kk = udLookup R kk) := by
    intro kk
    by_cases hw1 : kk ∈ child.writeBuffer.map Prod.fst
    · left
      have hkdb : kk ∉ child.deleteBuffer := fun hdb => hdisj kk hdb hw1
      rcases @merged_written K V _ R child.writeBuffer child.deleteBuffer kk w
          hw1 hwnd hkdb with ⟨h1, h2, h3⟩
      exact ⟨true, by rw [hR2def]; exact h1, by rw [hR2def]; exact h2,
        by rw [hR2def]; exact h3⟩
    · by_cases hd1 : kk ∈ child.deleteBuffer
      · left
        rcases @merged_deleted K V _ R child.writeBuffer child.deleteBuffer kk w
            hd1 hdnd hw1 hBn with ⟨h1, h2, h3⟩
        exact ⟨false, by rw [hR2def]; exact h1, by rw [hR2def, h2]; rfl,
          by rw [hR2def]; exact h3⟩
      · right
        refine ⟨?_, ?_, ?_⟩
        · rw [hR2def, applyDeletes_idx_not_mem hd1, applyWrites_idx_not_mem hw1]
        · rw [hR2def, applyDeletes_backend_not_mem hd1,
            applyWrites_backend_not_mem hw1]
        · rw [hR2def, applyDeletes_ud_not_mem hd1, applyWrites_ud_not_mem hw1]
  refine ⟨⟨?_, ?_⟩, ⟨?_, ?_⟩, ⟨?_, ?_⟩, ?_⟩
  · rw [hcidx]
    exact hidxnd2
  · intro p hp
    rw [hcidx] at hp
    have hpl : alookup p.1 R2.versionIndex = some p.2 :=
      alookup_of_mem_nodup hidxnd2 hp
    rcases hchar p.1 with ⟨c, hidxc, hbch, hudc⟩ | ⟨hidxu, hbu, hudu⟩
    · rw [hidxc] at hpl
      have hp2 : p.2 = (alookup p.1 R.versionIndex).getD [] ++ [VRec.mk w c] :=
        (Option.some.inj hpl).symm
      rcases hold : alookup p.1 R.versionIndex with _ | l
      · rw [hold] at hp2
        simp only [Option.getD_none, List.nil_append] at hp2
        refine ⟨?_, ?_, ?_⟩
        · rw [hp2]
          exact List.chain'_singleton _
        · rw [hp2]
          simp
        · intro r hr
          rw [hp2] at hr
          simp only [List.mem_singleton] at hr
          rw [hr, hcv]
      · rw [hold] at hp2
        simp only [Option.getD_some] at hp2
        rcases IdxOk_of_lookup ⟨hIn, hIp⟩ hold with ⟨hch, hne, hbd⟩
        refine ⟨?_, ?_, ?_⟩
        · rw [hp2]
          refine List.Chain'.append hch (List.chain'_singleton _) ?_
          intro x hx y hy
          simp only [List.head?_cons, Option.mem_def, Option.some.injEq] at hy
          have hxv : x.version ≤ R.version :=
            hbd x (mem_of_getLast (Option.mem_def.mp hx))
          rw [← hy]
          show x.version < w
          rw [hwdef]
          exact Nat.lt_succ_of_le hxv
        · rw [hp2]
          simp
        · intro r hr
          rw [hp2] at hr
          rcases List.mem_append.mp hr with h1 | h1
          · rw [hcv, hwdef]
            exact Nat.le_succ_of_le (hbd r h1)
          · simp only [List.mem_singleton] at h1
            rw [h1, hcv]
    · rw [hidxu] at hpl
      rcases hIp (p.1, p.2) (alookup_mem hpl) with ⟨hch, hne, hbd⟩
      refine ⟨hch, hne, ?_⟩
      intro r hr
      rw [hcv, hwdef]
      exact Nat.le_succ_of_le (hbd r hr)
  · exact cleanup_ud_keys_nodup (by rw [h3ud]; exact hudnd2)
  · intro p hp e he
    rcases cleanup_cache_mem hp with ⟨q, hq, _, hsub⟩
    have heq : e ∈ q.2 := hsub e he
    rw [h3ud] at hq
    have hql : udLookup R2 q.1 = q.2 := by
      simp [udLookup, alookup_of_mem_nodup hudnd2 hq]
    have he2 : e ∈ udLookup R2 q.1 := by
      rw [hql]
      exact heq
    rw [hcv]
    rcases hchar q.1 with ⟨c, hidxc, hbch, hudc⟩ | ⟨hidxu, hbu, hudu⟩
    · rw [hudc] at he2
      rcases List.mem_append.mp he2 with h1 | h1
      · rw [hwdef]
        exact Nat.le_succ_of_le (UndoOk_udLookup ⟨hUn, hUp⟩ e h1)
      · rcases hbk : alookup q.1 R.backend with _ | b
        · rw [hbk] at h1
          simp at h1
        · rw [hbk] at h1
          simp only [List.mem_singleton] at h1
          rw [h1]
    · rw [hudu] at he2
      rw [hwdef]
      exact Nat.le_succ_of_le (UndoOk_udLookup ⟨hUn, hUp⟩ e he2)
  · rw [hcb]
    exact hbnd2
  · intro p hp r hr
    rw [hcidx] at hp
    have hpl : alookup p.1 R2.versionIndex = some p.2 :=
      alookup_of_mem_nodup hidxnd2 hp
    rw [hcb]
    rcases hchar p.1 with ⟨c, hidxc, hbch, hudc⟩ | ⟨hidxu, hbu, hudu⟩
    · rw [hidxc] at hpl
      have hp2 : p.2 = (alookup p.1 R.versionIndex).getD [] ++ [VRec.mk w c] :=
        (Option.some.inj hpl).symm
      rw [hp2, List.getLast?_concat] at hr
      have hrc : r = VRec.mk w c := (Option.some.inj hr).symm
      rw [hrc, hbch]
    · rw [hidxu] at hpl
      rw [hbu]
      exact hSp (p.1, p.2) (alookup_mem hpl) r hr
  · intro p hp pr hpr hp1 hm
    rw [hcidx] at hp
    have hpl : alookup p.1 R2.versionIndex = some p.2 :=
      alookup_of_mem_nodup hidxnd2 hp
    rw [hmc] at hm
    have hudf := hcud p.1
    rcases hchar p.1 with ⟨c, hidxc, hbch, hudc⟩ | ⟨hidxu, hbu, hudu⟩
    · rw [hidxc] at hpl
      have hp2 : p.2 = (alookup p.1 R.versionIndex).getD [] ++ [VRec.mk w c] :=
        (Option.some.inj hpl).symm
      rcases hold : alookup p.1 R.versionIndex with _ | l
      · rw [hold] at hp2
        simp only [Option.getD_none, List.nil_append] at hp2
        rw [hp2] at hpr
        simp at hpr
      · rw [hold] at hp2
        simp only [Option.getD_some] at hp2
        rw [hp2] at hpr
        rcases zip_tail_append_singleton hpr with hpold | ⟨hlast, hbr⟩
        · rcases CompleteOk_of_lookup hC hold hpold hp1
              (Nat.lt_of_le_of_lt hmle hm) with ⟨e, he, hev⟩
          refine ⟨e, ?_, hev⟩
          rw [hudf]
          refine List.mem_filter.mpr ⟨?_, ?_⟩
          · rw [hudc]
            exact List.mem_append_left _ he
          · simp only [decide_eq_true_eq]
            rw [hev]
            exact hm
        · have hpv : pr.2.version = w := by rw [hbr]
          have hbk : (alookup p.1 R.backend).isSome = true :=
            (SyncOk_of_lookup ⟨hBn, hSp⟩ hold hlast).mp hp1
          rcases Option.isSome_iff_exists.mp hbk with ⟨b, hb⟩
          refine ⟨UEntry.mk b w, ?_, by rw [hpv]⟩
          rw [hudf]
          refine List.mem_filter.mpr ⟨?_, ?_⟩
          · rw [hudc, hb]
            exact List.mem_append_right _ (List.mem_singleton.mpr rfl)
          · simp only [decide_eq_true_eq]
            show minActiveVersion R3 < w
            rw [← hpv]
            exact hm
    · rw [hidxu] at hpl
      rcases CompleteOk_of_lookup hC hpl hpr hp1
          (Nat.lt_of_le_of_lt hmle hm) with ⟨e, he, hev⟩
      refine ⟨e, ?_, hev⟩
      rw [hudf]
      refine List.mem_filter.mpr ⟨?_, ?_⟩
      · rw [hudu]
        exact he
      · simp only [decide_eq_true_eq]
        rw [hev]
        exact hm

/-- A fresh Root over a backend with unique keys satisfies the invariant
(empty index, cache and registry). -/
theorem rootWF_fresh (b0 : List (K × V)) (h : (b0.map Prod.fst).Nodup) :
    RootWF (freshRoot b0 : RootState K V) := by
  refine ⟨⟨?_, ?_⟩, ⟨?_, ?_⟩, ⟨?_, ?_⟩, ?_⟩
  · simp [freshRoot]
  · intro p hp
    simp [freshRoot] at hp
  · simp [freshRoot]
  · intro p hp
    simp [freshRoot] at hp
  · exact h
  · intro p hp
    simp [freshRoot] at hp
  · intro p hp
    simp [freshRoot] at hp

/-- Registering a nested transaction preserves the invariant, because the
child's snapshot (the Root's global version, or the caller's own snapshot
when the caller is itself a registered live transaction) never undercuts
the oldest live snapshot. -/
theorem createNested_preserves_WF {b : TxBuf K V} {R : RootState K V} {newTid : Nat}
    {c : TxBuf K V} {R' : RootState K V}
    (hwf : RootWF R)
    (hreg : b.isRoot = true ∨
      ∃ a ∈ R.activeTransactions, a.committed = false ∧
        a.snapshotVersion = b.snapshotVersion)
    (hok : createNested b R newTid = .ok (c, R')) :
    RootWF R' := by
  unfold createNested at hok
  by_cases hcm : b.committed
  · rw [if_pos hcm] at hok
    simp at hok
  · rw [if_neg hcm] at hok
    simp only [Except.ok.injEq, Prod.mk.injEq] at hok
    obtain ⟨hc, hR⟩ := hok
    subst hR
    obtain ⟨hI, hU, hS, hC⟩ := hwf
    refine ⟨hI, hU, hS, ?_⟩
    intro p hp pr hpr h1 hm
    have hmle : minActiveVersion R ≤ minActiveVersion
        { R with activeTransactions := R.activeTransactions ++ [ActiveTx.mk newTid (if b.isRoot = true then R.version else b.snapshotVersion) false] } := by
      refine le_minActive _ _ (minActive_le_version R) ?_
      intro a ha hacm
      have ha' : a ∈ R.activeTransactions ++ [ActiveTx.mk newTid (if b.isRoot = true then R.version else b.snapshotVersion) false] := ha
      rcases List.mem_append.mp ha' with h2 | h2
      · exact minActive_le_of_mem R a h2 hacm
      · simp only [List.mem_singleton] at h2
        rw [h2]
        show minActiveVersion R ≤ (if b.isRoot = true then R.version else b.snapshotVersion)
        by_cases hroot : b.isRoot = true
        · rw [if_pos hroot]
          exact minActive_le_version R
        · rw [if_neg hroot]
          rcases hreg with hL | ⟨a0, ha0, hac0, has0⟩
          · exact absurd hL hroot
          · rw [← has0]
            exact minActive_le_of_mem R a0 ha0 hac0
    exact hC p hp pr hpr h1 (Nat.lt_of_le_of_lt hmle hm)

/-! ### Shape lemmas for the snapshot existence check -/

theorem diskExists_cache_invariant (R : RootState K V) (k : K) (v : Nat)
    (dc : List (K × List (UEntry V))) :
    diskExists { R with deletedCache := dc } k v = diskExists R k v := rfl

theorem diskExists_no_history (R : RootState K V) (k : K) (v : Nat)
    (h : alookup k R.versionIndex = none) :
    diskExists R k v = (alookup k R.backend).isSome := by
  unfold diskExists
  rw [h]

theorem diskExists_target_absent {R : RootState K V} {k : K} {v : Nat} {l : List VRec}
    (h : alookup k R.versionIndex = some l) (ht : (walkIndex l v).1 = none) :
    diskExists R k v = (alookup k R.backend).isSome := by
  unfold diskExists
  rw [h]
  simp [ht]

theorem diskExists_target_some {R : RootState K V} {k : K} {v : Nat} {l : List VRec}
    {t : VRec} (h : alookup k R.versionIndex = some l)
    (ht : (walkIndex l v).1 = some t) :
    diskExists R k v = t.present := by
  unfold diskExists
  rw [h]
  simp [ht]

/-- When a live target record was later superseded, the Undo Cache holds the
pre-image at `next.version` (for the snapshot of any registered live
transaction) and the read returns it. -/
theorem diskRead_undo_found {R : RootState K V} {k : K} {v : Nat} {l : List VRec}
    {t n : VRec} (hwf : RootWF R)
    (hl : alookup k R.versionIndex = some l)
    (ht : (walkIndex l v).1 = some t) (hp : t.present = true)
    (hn : (walkIndex l v).2 = some n)
    (hlive : ∃ a ∈ R.activeTransactions, a.committed = false ∧
      a.snapshotVersion = v) :
    ∃ e ∈ udLookup R k, e.deletedAtVersion = n.version ∧
      diskRead R k v = some e.value := by
  have hadj : (t, n) ∈ l.zip l.tail := walk_adjacent l v t n ht hn
  have hnv : v < n.version := (walk_next_some hn).2
  have hmv : minActiveVersion R < n.version := by
    rcases hlive with ⟨a, ha, hac, hasv⟩
    have h1 : minActiveVersion R ≤ v := by
      rw [← hasv]
      exact minActive_le_of_mem R a ha hac
    exact Nat.lt_of_le_of_lt h1 hnv
  have hex := CompleteOk_of_lookup hwf.2.2.2 hl hadj hp hmv
  have hfind : ((udLookup R k).find?
      (fun c => decide (c.deletedAtVersion = n.version))).isSome = true := by
    rw [List.find?_isSome]
    rcases hex with ⟨e, he, hev⟩
    exact ⟨e, he, by simpa using hev⟩
  rcases Option.isSome_iff_exists.mp hfind with ⟨m, hm⟩
  refine ⟨m, List.mem_of_find?_eq_some hm, by simpa using List.find?_some hm, ?_⟩
  rw [diskRead_undo hl ht hp hn, hm]

/-- C3: the Root snapshot reader resolves a key through the Version Index
walk: an unmanaged key reads the live backend; `next` is the first record
past the snapshot and `target` the most recent record at or below it; a
missing or tombstoned target reads absent; a live target with no later
record reads the live backend; and a live target overwritten later reads
the Undo Cache entry superseded exactly at `next.version`, which is
guaranteed to exist for the snapshot of any registered live transaction. -/
theorem snapshot_reader_correct (R : RootState K V) (k : K) (v : Nat)
    (hwf : RootWF R) :
    (alookup k R.versionIndex = none → diskRead R k v = alookup k R.backend) ∧
    (∀ l, alookup k R.versionIndex = some l →
      ((walkIndex l v).2 = l.find? (fun r => decide (v < r.version)) ∧
       (walkIndex l v).1 = (l.filter (fun r => decide (r.version ≤ v))).getLast? ∧
       ((walkIndex l v).1 = none → diskRead R k v = none) ∧
       (∀ t, (walkIndex l v).1 = some t → t.present = false →
         diskRead R k v = none) ∧
       (∀ t, (walkIndex l v).1 = some t → t.present = true →
         (walkIndex l v).2 = none → diskRead R k v = alookup k R.backend) ∧
       (∀ t n, (walkIndex l v).1 = some t → t.present = true →
         (walkIndex l v).2 = some n →
         (∃ a ∈ R.activeTransactions, a.committed = false ∧
           a.snapshotVersion = v) →
         ∃ e ∈ udLookup R k, e.deletedAtVersion = n.version ∧
           diskRead R k v = some e.value))) := by
  refine ⟨fun h => diskRead_no_history R k v h, fun l hl => ?_⟩
  refine ⟨walk_next_eq_find l v, ?_, ?_, ?_, ?_, ?_⟩
  · exact walk_fst_sorted (IdxOk_of_lookup hwf.1 hl).1
  · intro ht
    exact diskRead_target_absent hl ht
  · intro t ht hp
    exact diskRead_target_tombstone hl ht hp
  · intro t ht hp hn
    exact diskRead_live hl ht hp hn
  · intro t n ht hp hn hlive
    exact diskRead_undo_found hwf hl ht hp hn hlive

/-- C3 witness: in scenario 2's merged state the live reader at snapshot 1
resolves key 5 through the Undo Cache entry superseded at version 2. -/
theorem snapshot_reader_correct_witness :
    ∃ e ∈ udLookup s2R2 5, e.deletedAtVersion = (VRec.mk 2 false).version ∧
      diskRead s2R2 5 1 = some e.value :=
  ((snapshot_reader_correct s2R2 5 1 (by decide)).2
      [VRec.mk 1 true, VRec.mk 2 false] (by decide)).2.2.2.2.2
    (VRec.mk 1 true) (VRec.mk 2 false) (by decide) (by decide) (by decide)
    (by decide)

/-- C5 counterexample: in scenario 2 after the first commit, the reader at
snapshot 0 sees no index record at or below its snapshot, yet `exists`
falls back to the live backend and answers `true` while `read` answers
absent — refuting both "absence of such a record means logically absent"
and "exists(k) is true exactly when read(k) yields a value". -/
theorem exists_resolution_counterexample :
    alookup 5 s2R1.versionIndex = some [VRec.mk 1 true] ∧
    (walkIndex [VRec.mk 1 true] 0).1 = none ∧
    existsOp s2reader s2R1 5 = .ok true ∧
    readOp s2reader s2R1 5 = .ok none := by decide

/-- C5 (amended): `_diskExists` never consults the Undo Cache; it returns
`target.exists` whenever a record is visible at the snapshot — agreeing
there with `read` for the snapshot of any registered live transaction —
but with no visible record (and for unmanaged keys) it falls back to the
live backend existence, where it can disagree with `read`. -/
theorem exists_resolution_amended (R : RootState K V) (k : K) (v : Nat)
    (hwf : RootWF R)
    (hlive : ∃ a ∈ R.activeTransactions, a.committed = false ∧
      a.snapshotVersion = v) :
    (∀ dc, diskExists { R with deletedCache := dc } k v = diskExists R k v) ∧
    (alookup k R.versionIndex = none →
      diskExists R k v = (alookup k R.backend).isSome ∧
      (diskRead R k v).isSome = diskExists R k v) ∧
    (∀ l, alookup k R.versionIndex = some l →
      ((walkIndex l v).1 = none →
        diskExists R k v = (alookup k R.backend).isSome) ∧
      (∀ t, (walkIndex l v).1 = some t → diskExists R k v = t.present) ∧
      ((walkIndex l v).1 ≠ none → (diskRead R k v).isSome = diskExists R k v)) := by
  refine ⟨fun dc => diskExists_cache_invariant R k v dc, ?_, ?_⟩
  · intro h
    refine ⟨diskExists_no_history R k v h, ?_⟩
    rw [diskRead_no_history R k v h, diskExists_no_history R k v h]
  · intro l hl
    refine ⟨fun ht => diskExists_target_absent hl ht, ?_, ?_⟩
    · intro t ht
      exact diskExists_target_some hl ht
    · intro hne
      rcases hwt : (walkIndex l v).1 with _ | t
      · exact absurd hwt hne
      · by_cases hpt : t.present = true
        · rcases hnx : (walkIndex l v).2 with _ | n
          · have hall : ∀ r ∈ l, r.version ≤ v := (walk_next_none_iff l v).mp hnx
            have hgl : l.getLast? = some t := by
              rw [← walk_fst_of_all_le l v hall]
              exact hwt
            have hbk : (alookup k R.backend).isSome = true :=
              (SyncOk_of_lookup hwf.2.2.1 hl hgl).mp hpt
            rw [diskRead_live hl hwt hpt hnx, hbk,
              diskExists_target_some hl hwt, hpt]
          · rcases diskRead_undo_found hwf hl hwt hpt hnx hlive
                with ⟨e, _, _, hre⟩
            rw [hre, diskExists_target_some hl hwt, hpt]
            rfl
        · have hpf : t.present = false := by
            rcases hb : t.present
            · rfl
            · exact absurd hb hpt
          rw [diskRead_target_tombstone hl hwt hpf,
            diskExists_target_some hl hwt, hpf]
          rfl

/-- C5 witness: the amended theorem applied in scenario 2's merged state,
where the live reader at snapshot 1 has a visible target for key 5 and
`exists` agrees with `read`. -/
theorem exists_resolution_amended_witness :
    (diskRead s2R2 5 1).isSome = diskExists s2R2 5 1 :=
  (((exists_resolution_amended s2R2 5 1 (by decide) (by decide)).2.2
    [VRec.mk 1 true, VRec.mk 2 false] (by decide)).2.2) (by decide)

end MVCC
